import Mathlib

/-!
Verification of `scripts/crawl_github.py` (Craft-Typecho repository).

This file gives a shallow embedding of the pure core of the crawler:
the identifier sanitizer (`_slugify`, `_is_valid_dir`), the metadata
extractor (`_first_docblock`, `_docblock_lines`, `_parse_docblock`,
`_extract_class_prefix` — modelled as `extractClassMarker`,
`_clean_version`), the project builder (`_make_project`) and the catalog
merger (`_merge_projects` with its inner `unique_id`).

Modelling conventions:
* Python `str` is modelled as Lean `String` (a structure over `List Char`);
  character-level work happens on `List Char`.
* Python regex character classes `[A-Za-z0-9]`, `\d`, `\s` and `str.strip`,
  `str.lower` are modelled at ASCII level (the inputs the claims are about
  are ASCII).
* JSON records are modelled as a `Project` structure whose string fields
  use `""` for Python-falsy/absent values (the merge code only ever
  distinguishes truthy vs falsy for them); the `isGithub`/`direct` flags
  are `Option Bool` because the merge code tests for key *presence*.
-/

namespace Crawl

/-- ASCII lowercase letter. -/
def isAsciiLower (c : Char) : Bool := 'a' ≤ c && c ≤ 'z'

/-- ASCII uppercase letter. -/
def isAsciiUpper (c : Char) : Bool := 'A' ≤ c && c ≤ 'Z'

/-- ASCII digit, the model of regex `\d` and `[0-9]`. -/
def isDigitCh (c : Char) : Bool := '0' ≤ c && c ≤ '9'

/-- Model of regex `[A-Za-z0-9]`. -/
def isAsciiAlnum (c : Char) : Bool := isAsciiLower c || isAsciiUpper c || isDigitCh c

/-- Model of regex `[a-z0-9]`. -/
def isLowerAlnum (c : Char) : Bool := isAsciiLower c || isDigitCh c

/-- ASCII model of Python `str.lower` applied to one character. -/
def pyToLower (c : Char) : Char :=
  if isAsciiUpper c then Char.ofNat (c.toNat + 32) else c

/-- Python whitespace (`str.strip` / regex `\s`), ASCII part. -/
def isPySpace (c : Char) : Bool :=
  c = ' ' || c = '\t' || c = '\n' || c = '\r' || c = '\x0b' || c = '\x0c'

/-- Remove leading and trailing characters satisfying `p`
(Python `str.strip(chars)`). -/
def stripList (p : Char → Bool) (cs : List Char) : List Char :=
  (cs.dropWhile p).rdropWhile p

/-- Python `str.strip()` on a character list. -/
def pyStripL (cs : List Char) : List Char := stripList isPySpace cs

/-- Python `str.strip()`. -/
def pyStrip (s : String) : String := ⟨pyStripL s.data⟩

/-- Model of `re.sub(r"[^…]+", "-", s)`: every maximal run of characters
*not* satisfying `p` is replaced by a single `'-'`. -/
def collapseRuns (p : Char → Bool) (cs : List Char) : List Char :=
  cs.foldr (fun c acc =>
    if p c then c :: acc
    else if acc.head? = some '-' then acc else '-' :: acc) []

/-- Model of `re.sub(r"-{2,}", "-", s)`: runs of two or more hyphens are
collapsed to a single hyphen. -/
def collapseDashes (cs : List Char) : List Char :=
  cs.foldr (fun c acc =>
    if c = '-' ∧ acc.head? = some '-' then acc else c :: acc) []

/-- Source `_slugify`: strip, lowercase, collapse non-`[a-z0-9]` runs to a
hyphen, collapse hyphen runs, strip hyphens at both ends. -/
def _slugify (s : String) : String :=
  let cs := (pyStripL s.data).map pyToLower
  ⟨stripList (· = '-') (collapseDashes (collapseRuns isLowerAlnum cs))⟩

/-- Core of the `_DIR_RE` regex `[A-Za-z0-9][A-Za-z0-9_-]*`, matched
against a whole character list. -/
def dirCore : List Char → Bool
  | [] => false
  | c :: rest => isAsciiAlnum c && rest.all (fun x => isAsciiAlnum x || x = '-' || x = '_')

/-- Source `_is_valid_dir`: `bool(s and _DIR_RE.match(s))` where
`_DIR_RE = ^[A-Za-z0-9][A-Za-z0-9_-]*$`.  Python's `$` (without
`re.MULTILINE`) matches at the end of the string *or just before a
trailing newline*, so the regex also accepts `core ++ "\n"`. -/
def _is_valid_dir (s : String) : Bool :=
  !s.data.isEmpty &&
    (dirCore s.data || (s.data.getLast? = some '\n' && dirCore s.data.dropLast))

/-- The directory-name predicate as the specification words it:
non-empty, first character alphanumeric, all remaining characters
alphanumeric, hyphen or underscore. -/
def specDirClaim (s : String) : Prop :=
  s ≠ "" ∧ (∀ c ∈ s.data.take 1, isAsciiAlnum c = true) ∧
    ∀ c ∈ s.data.drop 1, (isAsciiAlnum c || c = '-' || c = '_') = true

instance (s : String) : Decidable (specDirClaim s) := by
  unfold specDirClaim; infer_instance

theorem specDirClaim_iff_dirCore (s : String) : specDirClaim s ↔ dirCore s.data = true := by
  unfold specDirClaim
  rcases s with ⟨cs⟩
  cases cs with
  | nil => simp [dirCore]
  | cons c rest =>
      have hne : (⟨c :: rest⟩ : String) ≠ "" := by
        intro h
        have := congrArg String.data h
        simp at this
      simp [dirCore, List.all_eq_true, hne]

/-- Helper: elements of `stripList p cs` come from `cs`. -/
theorem stripList_sublist (p : Char → Bool) (cs : List Char) :
    List.Sublist (stripList p cs) cs :=
  (( List.rdropWhile_prefix p _).sublist).trans ((List.dropWhile_suffix p).sublist)

theorem head?_dropWhile_not {p : Char → Bool} :
    ∀ {l : List Char} {a : Char}, (l.dropWhile p).head? = some a → p a = false
  | [], _, h => by simp at h
  | c :: l, a, h => by
      by_cases hp : p c
      · rw [List.dropWhile_cons_of_pos hp] at h
        exact head?_dropWhile_not h
      · rw [List.dropWhile_cons_of_neg hp] at h
        simp only [List.head?_cons, Option.some.injEq] at h
        subst h; simpa using hp

theorem stripList_head_not {p : Char → Bool} {cs : List Char} {a : Char}
    (h : (stripList p cs).head? = some a) : p a = false := by
  obtain ⟨t, ht⟩ := List.rdropWhile_prefix p (cs.dropWhile p)
  rcases hd : stripList p cs with _ | ⟨b, rest⟩
  · rw [hd] at h; simp at h
  · rw [hd] at h
    simp only [List.head?_cons, Option.some.injEq] at h
    subst h
    have ht' : (b :: rest) ++ t = cs.dropWhile p := by
      rw [← hd]; exact ht
    apply head?_dropWhile_not (p := p) (l := cs)
    rw [← ht']; rfl

theorem stripList_getLast_not {p : Char → Bool} {cs : List Char} {a : Char}
    (h : (stripList p cs).getLast? = some a) : p a = false := by
  have hne : (cs.dropWhile p).rdropWhile p ≠ [] := by
    intro h0
    rw [show stripList p cs = (cs.dropWhile p).rdropWhile p from rfl, h0] at h
    simp at h
  have h2 := List.rdropWhile_last_not p (cs.dropWhile p) hne
  have h3 : ((cs.dropWhile p).rdropWhile p).getLast? = some a := h
  rw [List.getLast?_eq_getLast _ hne, Option.some.injEq] at h3
  rw [h3] at h2
  simpa using h2

theorem mem_collapseRuns {p : Char → Bool} :
    ∀ {l : List Char} {c : Char}, c ∈ collapseRuns p l → p c = true ∨ c = '-'
  | [], c, h => by simp [collapseRuns] at h
  | d :: l, c, h => by
      simp only [collapseRuns, List.foldr_cons] at h
      by_cases hd : p d
      · rw [if_pos hd] at h
        rcases List.mem_cons.mp h with rfl | h'
        · exact Or.inl hd
        · exact mem_collapseRuns (l := l) (by simpa [collapseRuns] using h')
      · rw [if_neg hd] at h
        split at h
        · exact mem_collapseRuns (l := l) (by simpa [collapseRuns] using h)
        · rcases List.mem_cons.mp h with rfl | h'
          · exact Or.inr rfl
          · exact mem_collapseRuns (l := l) (by simpa [collapseRuns] using h')

theorem mem_collapseDashes :
    ∀ {l : List Char} {c : Char}, c ∈ collapseDashes l → c ∈ l ∨ c = '-'
  | [], c, h => by simp [collapseDashes] at h
  | d :: l, c, h => by
      simp only [collapseDashes, List.foldr_cons] at h
      split at h
      · rcases mem_collapseDashes (l := l) (by simpa [collapseDashes] using h) with h' | h'
        · exact Or.inl (List.mem_cons_of_mem _ h')
        · exact Or.inr h'
      · rcases List.mem_cons.mp h with rfl | h'
        · exact Or.inl (List.mem_cons_self _ _)
        · rcases mem_collapseDashes (l := l) (by simpa [collapseDashes] using h') with h'' | h''
          · exact Or.inl (List.mem_cons_of_mem _ h'')
          · exact Or.inr h''

theorem collapseDashes_chain' :
    ∀ l : List Char, (collapseDashes l).Chain' (fun a b => ¬(a = '-' ∧ b = '-'))
  | [] => by simp [collapseDashes]
  | d :: l => by
      have ih := collapseDashes_chain' l
      simp only [collapseDashes, List.foldr_cons] at ih ⊢
      split
      · exact ih
      · next hguard =>
          refine List.chain'_cons'.mpr ⟨?_, ih⟩
          intro y hy hcon
          rcases hcon with ⟨rfl, rfl⟩
          exact hguard ⟨rfl, hy⟩

/-- C9: for every input string, the slugify output consists only of lowercase
ASCII alphanumerics and hyphens, has no two adjacent hyphens, neither starts
nor ends with a hyphen, and the empty input yields the empty output
(`_slugify` is a total Lean function by construction). -/
theorem slugify_sanitized :
    (∀ s : String,
      (∀ c ∈ (_slugify s).data, isLowerAlnum c = true ∨ c = '-') ∧
      (_slugify s).data.Chain' (fun a b => ¬(a = '-' ∧ b = '-')) ∧
      (_slugify s).data.head? ≠ some '-' ∧
      (_slugify s).data.getLast? ≠ some '-') ∧
    _slugify "" = "" := by
  constructor
  · intro s
    have hdata : (_slugify s).data
        = stripList (fun c => decide (c = '-'))
            (collapseDashes (collapseRuns isLowerAlnum ((pyStripL s.data).map pyToLower))) := rfl
    refine ⟨?_, ?_, ?_, ?_⟩
    · intro c hc
      rw [hdata] at hc
      have hc' := (stripList_sublist _ _).subset hc
      rcases mem_collapseDashes hc' with h' | h'
      · exact mem_collapseRuns h'
      · exact Or.inr h'
    · rw [hdata]
      exact List.Chain'.prefix
        ((collapseDashes_chain' _).suffix (List.dropWhile_suffix _))
        ( List.rdropWhile_prefix _ _)
    · intro h
      rw [hdata] at h
      have := stripList_head_not h
      simp at this
    · intro h
      rw [hdata] at h
      have := stripList_getLast_not h
      simp at this
  · rfl

/-- Witness for C9 at a concrete input: `'h'` is a character of
`_slugify "Hello World!" = "hello-world"`, so it is a lowercase
alphanumeric or a hyphen. -/
theorem slugify_sanitized_witness : isLowerAlnum 'h' = true ∨ 'h' = '-' :=
  ((slugify_sanitized.1 "Hello World!").1) 'h' (by decide)

/-- Counterexample to C4 as stated: `_is_valid_dir` accepts `"abc\n"`
(Python's `$` anchor matches just before a trailing newline), although the
remaining characters of `"abc\n"` are not all alphanumeric, hyphen or
underscore, so the claimed "if and only if" fails at this input. -/
theorem valid_dir_newline_counterexample :
    _is_valid_dir "abc\n" = true ∧ ¬ specDirClaim "abc\n" := by
  constructor
  · decide
  · decide

/-- C4 (amended): the directory-name validator returns true iff the string
either has the claimed shape (non-empty, alphanumeric first character,
remaining characters alphanumeric, hyphen or underscore) or consists of such
a string followed by one trailing newline.  The claim's three concrete
examples hold. -/
theorem valid_dir_amended :
    (∀ s : String, _is_valid_dir s = true ↔
      (specDirClaim s ∨ (s.data.getLast? = some '\n' ∧ specDirClaim ⟨s.data.dropLast⟩))) ∧
    _is_valid_dir "My-Plugin_1" = true ∧ _is_valid_dir "../etc" = false ∧
    _is_valid_dir "" = false := by
  refine ⟨?_, by decide, by decide, by decide⟩
  intro s
  rw [specDirClaim_iff_dirCore, specDirClaim_iff_dirCore]
  unfold _is_valid_dir
  simp only [Bool.and_eq_true, Bool.or_eq_true, Bool.not_eq_true',
    List.isEmpty_eq_false, decide_eq_true_eq]
  constructor
  · rintro ⟨-, h⟩
    exact h
  · intro h
    refine ⟨?_, h⟩
    rcases h with h | ⟨h, -⟩
    · intro h0
      rw [h0] at h
      simp [dirCore] at h
    · intro h0
      rw [h0] at h
      simp at h

/-! ### Version cleaning (`_clean_version`) -/

/-- Greedy match of the regex `\d+\.\d+(?:\.\d+)?` anchored at the head of the
character list.  `.` is not a digit, so the maximal-munch digit runs need no
backtracking; the optional third component is taken when present. -/
def matchVerAt (cs : List Char) : Option (List Char) :=
  let d1 := cs.takeWhile isDigitCh
  let r1 := cs.dropWhile isDigitCh
  if d1 = [] then none
  else if r1.head? = some '.' then
    let d2 := r1.tail.takeWhile isDigitCh
    let r3 := r1.tail.dropWhile isDigitCh
    if d2 = [] then none
    else if r3.head? = some '.' then
      let d3 := r3.tail.takeWhile isDigitCh
      if d3 = [] then some (d1 ++ '.' :: d2)
      else some (d1 ++ '.' :: d2 ++ '.' :: d3)
    else some (d1 ++ '.' :: d2)
  else none

/-- Leftmost match of `re.search(r"(\d+\.\d+(?:\.\d+)?)", v)`: the first
position whose anchored match succeeds wins. -/
def searchVer : List Char → Option (List Char)
  | [] => none
  | c :: rest =>
      match matchVerAt (c :: rest) with
      | some m => some m
      | none => searchVer rest

/-- The conservative allowed character set `[0-9A-Za-z.+-]` of
`_clean_version`'s fallback (`re.sub(r"[^0-9A-Za-z.+-]", "", v)`). -/
def isAllowedVerCh (c : Char) : Bool := isAsciiAlnum c || c = '.' || c = '+' || c = '-'

/-- Fallback branch of `_clean_version`, applied to the stripped string:
`v.lstrip("vV").replace("_", ".")` then removal of disallowed characters. -/
def cleanFallback (cs : List Char) : List Char :=
  ((cs.dropWhile (fun c => c = 'v' ∨ c = 'V')).map
      (fun c => if c = '_' then '.' else c)).filter isAllowedVerCh

/-- Source `_clean_version`: strip; empty gives empty; else first
`\d+\.\d+(\.\d+)?` match if any; else the lstrip/replace/filter fallback. -/
def _clean_version (v : String) : String :=
  let w := pyStrip v
  if w = "" then ""
  else
    match searchVer w.data with
    | some m => ⟨m⟩
    | none => ⟨cleanFallback w.data⟩

/-- The fallback transformation exactly as claim C5 words it, applied to the
raw input: "v with a leading 'v' stripped, underscores converted to dots, and
all characters outside the conservative allowed set removed". -/
def claimFallback (v : String) : String :=
  ⟨((match v.data with
      | 'v' :: rest => rest
      | cs => cs).map (fun c => if c = '_' then '.' else c)).filter isAllowedVerCh⟩

theorem pySpace_not_digit {c : Char} (h : isPySpace c = true) :
    isDigitCh c = false ∧ c ≠ '.' := by
  simp only [isPySpace, Bool.or_eq_true, decide_eq_true_eq] at h
  rcases h with ((((h | h) | h) | h) | h) | h <;> subst h <;> exact ⟨by decide, by decide⟩

theorem takeWhile_append_inert {p : Char → Bool} {zs : List Char}
    (hz : zs.takeWhile p = []) :
    ∀ ys : List Char, (ys ++ zs).takeWhile p = ys.takeWhile p
  | [] => by simpa using hz
  | c :: ys => by
      by_cases hc : p c
      · simp only [List.cons_append, List.takeWhile_cons, hc, if_pos]
        rw [takeWhile_append_inert hz ys]
      · simp [List.takeWhile_cons, hc]

theorem dropWhile_append_inert {p : Char → Bool} {zs : List Char}
    (hz : zs.dropWhile p = zs) :
    ∀ ys : List Char, (ys ++ zs).dropWhile p = ys.dropWhile p ++ zs
  | [] => by simpa using hz
  | c :: ys => by
      by_cases hc : p c
      · simp only [List.cons_append, List.dropWhile_cons, hc, if_pos]
        exact dropWhile_append_inert hz ys
      · simp [List.dropWhile_cons, hc]

/-- A list is inert for the version regex when it contains no digit and no
dot: appending it cannot create or extend a match. -/
def verInert (zs : List Char) : Prop := ∀ c ∈ zs, isDigitCh c = false ∧ c ≠ '.'

theorem verInert_takeWhile {zs : List Char} (hz : verInert zs) :
    zs.takeWhile isDigitCh = [] := by
  cases zs with
  | nil => rfl
  | cons c l =>
      rw [List.takeWhile_cons, if_neg]
      simp [(hz c (List.mem_cons_self _ _)).1]

theorem verInert_dropWhile {zs : List Char} (hz : verInert zs) :
    zs.dropWhile isDigitCh = zs := by
  cases zs with
  | nil => rfl
  | cons c l =>
      rw [List.dropWhile_cons, if_neg]
      simp [(hz c (List.mem_cons_self _ _)).1]

theorem verInert_head_not_dot {zs : List Char} (hz : verInert zs) :
    zs.head? ≠ some '.' := by
  cases zs with
  | nil => simp
  | cons c l =>
      simp only [List.head?_cons, ne_eq, Option.some.injEq]
      exact (hz c (List.mem_cons_self _ _)).2

theorem matchVerAt_append_inert {zs : List Char} (hz : verInert zs)
    (ys : List Char) : matchVerAt (ys ++ zs) = matchVerAt ys := by
  have htw := takeWhile_append_inert (verInert_takeWhile hz)
  have hdw := dropWhile_append_inert (verInert_dropWhile hz)
  unfold matchVerAt
  simp only [htw, hdw]
  by_cases h1 : ys.takeWhile isDigitCh = []
  · simp [h1]
  · rw [if_neg h1, if_neg h1]
    rcases hr1 : ys.dropWhile isDigitCh with _ | ⟨c1, t1⟩
    · simp only [List.nil_append]
      rw [if_neg (verInert_head_not_dot hz)]
      simp
    · simp only [List.cons_append, List.head?_cons, List.tail_cons]
      by_cases hc1 : c1 = '.'
      · subst hc1
        rw [if_pos rfl, if_pos rfl, htw, hdw]
        by_cases h2 : t1.takeWhile isDigitCh = []
        · simp [h2]
        · rw [if_neg h2, if_neg h2]
          rcases hr3 : t1.dropWhile isDigitCh with _ | ⟨c3, t3⟩
          · simp only [List.nil_append]
            rw [if_neg (verInert_head_not_dot hz)]
            simp
          · simp only [List.cons_append, List.head?_cons, List.tail_cons]
            by_cases hc3 : c3 = '.'
            · subst hc3
              rw [if_pos rfl, if_pos rfl, htw]
            · rw [if_neg (by simpa using hc3), if_neg (by simpa using hc3)]
      · rw [if_neg (by simpa using hc1), if_neg (by simpa using hc1)]

theorem searchVer_nil_of_inert {zs : List Char} (hz : verInert zs) :
    searchVer zs = none := by
  induction zs with
  | nil => rfl
  | cons c l ih =>
      have hz' : verInert l := fun x hx => hz x (List.mem_cons_of_mem _ hx)
      have htk : (c :: l).takeWhile isDigitCh = [] := by
        rw [List.takeWhile_cons, if_neg (by simp [(hz c (List.mem_cons_self _ _)).1])]
      have hm : matchVerAt (c :: l) = none := by
        unfold matchVerAt
        simp [htk]
      simp only [searchVer, hm]
      exact ih hz'

theorem searchVer_cons (c : Char) (l : List Char) :
    searchVer (c :: l) =
      match matchVerAt (c :: l) with
      | some m => some m
      | none => searchVer l := rfl

theorem searchVer_append_inert {zs : List Char} (hz : verInert zs) :
    ∀ ys : List Char, searchVer (ys ++ zs) = searchVer ys
  | [] => by simpa using searchVer_nil_of_inert hz
  | c :: ys => by
      have hm := matchVerAt_append_inert hz (c :: ys)
      rw [List.cons_append] at hm
      rw [List.cons_append, searchVer_cons, searchVer_cons, hm]
      cases matchVerAt (c :: ys) with
      | some m => rfl
      | none => exact searchVer_append_inert hz ys

theorem searchVer_dropWhile_space (cs : List Char) :
    searchVer (cs.dropWhile isPySpace) = searchVer cs := by
  induction cs with
  | nil => rfl
  | cons c l ih =>
      by_cases hc : isPySpace c
      · rw [List.dropWhile_cons, if_pos hc]
        have htk : (c :: l).takeWhile isDigitCh = [] := by
          rw [List.takeWhile_cons, if_neg (by simp [(pySpace_not_digit hc).1])]
        have hm : matchVerAt (c :: l) = none := by
          unfold matchVerAt
          simp [htk]
        rw [ih]
        simp only [searchVer, hm]
      · rw [List.dropWhile_cons, if_neg hc]

/-- The whitespace strip performed by `_clean_version` does not change the
leftmost `\d+\.\d+(\.\d+)?` match: whitespace is neither a digit nor a dot. -/
theorem searchVer_pyStrip (s : String) :
    searchVer (pyStrip s).data = searchVer s.data := by
  show searchVer (stripList isPySpace s.data) = searchVer s.data
  unfold stripList
  have hdec : (s.data.dropWhile isPySpace).rdropWhile isPySpace ++
      (s.data.dropWhile isPySpace).rtakeWhile isPySpace = s.data.dropWhile isPySpace := by
    show List.reverse _ ++ List.reverse _ = _
    rw [← List.reverse_append, List.takeWhile_append_dropWhile, List.reverse_reverse]
  have hin : verInert ((s.data.dropWhile isPySpace).rtakeWhile isPySpace) := by
    intro c hc
    exact pySpace_not_digit (List.mem_rtakeWhile_imp hc)
  calc searchVer ((s.data.dropWhile isPySpace).rdropWhile isPySpace)
      = searchVer ((s.data.dropWhile isPySpace).rdropWhile isPySpace ++
          (s.data.dropWhile isPySpace).rtakeWhile isPySpace) :=
        (searchVer_append_inert hin _).symm
    _ = searchVer (s.data.dropWhile isPySpace) := by rw [hdec]
    _ = searchVer s.data := searchVer_dropWhile_space s.data

/-- Counterexample to C5 as stated: `" vx"` contains no dotted numeric
sequence, so the claim says the result is `" vx"` with a leading `'v'`
stripped (there is none — the first character is a space), underscores
converted and disallowed characters removed, i.e. `"vx"`.  The code strips
whitespace first and then removes the leading `'v'`, producing `"x"`. -/
theorem clean_version_counterexample :
    searchVer (" vx" : String).data = none ∧
    claimFallback " vx" = "vx" ∧
    _clean_version " vx" = "x" ∧
    ("x" : String) ≠ "vx" := by
  refine ⟨rfl, rfl, rfl, by decide⟩

/-- C5 (amended): for every raw version string `v`, the cleaner returns the
first dotted numeric sequence of two or three components occurring in `v`
if there is one; otherwise it returns `v` with surrounding whitespace
stripped, all leading `'v'`/`'V'` characters removed, underscores converted
to dots, and characters outside the conservative allowed set removed.  The
claim's three examples hold. -/
theorem clean_version_amended :
    (∀ v : String,
      (∀ m, searchVer v.data = some m → _clean_version v = ⟨m⟩) ∧
      (searchVer v.data = none →
        _clean_version v = ⟨cleanFallback (pyStrip v).data⟩)) ∧
    _clean_version "v2.3.1-beta" = "2.3.1" ∧
    _clean_version "Version 1.0" = "1.0" ∧
    _clean_version "" = "" := by
  refine ⟨?_, rfl, rfl, rfl⟩
  intro v
  have hinv := searchVer_pyStrip v
  constructor
  · intro m hm
    rw [← hinv] at hm
    by_cases hw : pyStrip v = ""
    · rw [hw] at hm
      exact Option.noConfusion ((rfl : searchVer ("" : String).data = none) ▸ hm)
    · unfold _clean_version
      rw [if_neg hw, hm]
  · intro hnone
    rw [← hinv] at hnone
    unfold _clean_version
    by_cases hw : pyStrip v = ""
    · rw [if_pos hw, hw]
      rfl
    · rw [if_neg hw, hnone]

/-- Witness for C5 (amended) at concrete inputs, discharging both
hypotheses: a string with a dotted match and a string without one. -/
theorem clean_version_amended_witness :
    _clean_version "v2.3.1-beta" = ⟨("2.3.1" : String).data⟩ ∧
    _clean_version "abc" = ⟨cleanFallback (pyStrip "abc").data⟩ :=
  ⟨(clean_version_amended.1 "v2.3.1-beta").1 ("2.3.1" : String).data rfl,
   (clean_version_amended.1 "abc").2 rfl⟩

/-! ### Docblock location and parsing (`_first_docblock`, `_docblock_lines`,
`_pick_first_nonempty`, `_parse_docblock`) -/

/-- Python `str.splitlines()` modelled for the `\n`, `\r\n` and `\r`
line boundaries. -/
def splitlinesAux : List Char → List Char → List (List Char)
  | [], acc => if acc = [] then [] else [acc.reverse]
  | '\r' :: '\n' :: rest, acc => acc.reverse :: splitlinesAux rest []
  | '\n' :: rest, acc => acc.reverse :: splitlinesAux rest []
  | '\r' :: rest, acc => acc.reverse :: splitlinesAux rest []
  | c :: rest, acc => splitlinesAux rest (c :: acc)

def pySplitlines (s : String) : List (List Char) := splitlinesAux s.data []

/-- One line of `_docblock_lines`: strip, cut a leading `/**`, cut a trailing
`*/`, strip leading asterisks, strip again. -/
def processDocLine (raw : List Char) : List Char :=
  let l1 := pyStripL raw
  let l2 := if l1.take 3 = ['/', '*', '*'] then l1.drop 3 else l1
  let l3 := if 2 ≤ l2.length ∧ l2.drop (l2.length - 2) = ['*', '/'] then
      l2.take (l2.length - 2) else l2
  pyStripL (l3.dropWhile (fun c => c = '*'))

/-- Source `_docblock_lines`. -/
def _docblock_lines (doc : String) : List (List Char) :=
  (pySplitlines doc).map processDocLine

/-- Source `_pick_first_nonempty`: first non-empty line not starting with
`'@'`, stripped; `""` if none. -/
def _pick_first_nonempty : List (List Char) → List Char
  | [] => []
  | line :: rest =>
      if line = [] then _pick_first_nonempty rest
      else if line.head? = some '@' then _pick_first_nonempty rest
      else pyStripL line

/-- The record produced by `_parse_docblock`. -/
structure DocMeta where
  package : String
  author : String
  version : String
  link : String
  description : String
deriving DecidableEq

/-- Model of `re.match(r"@<tag>\s+(.+)", line, re.I)` followed by
`.group(1).strip()`.  The match succeeds iff the line starts with the tag
(case-insensitively) followed by at least one whitespace character and at
least one further character; after backtracking, `group(1).strip()` equals
the stripped remainder of the line after the tag.  (Lines fed to this
function come from `splitlines`, so they contain no newline and the `.`
character class is unconstrained.) -/
def matchTag (tag : List Char) (line : List Char) : Option String :=
  let rest := line.drop tag.length
  if (line.take tag.length).map pyToLower = tag ∧ 2 ≤ rest.length ∧
      rest.head?.any isPySpace then
    some ⟨pyStripL rest⟩
  else none

def pkgTag : List Char := ("@package" : String).data

def authorTag : List Char := ("@author" : String).data

def versionTag : List Char := ("@version" : String).data

def linkTag : List Char := ("@link" : String).data

/-- `@link` check of `_parse_docblock`'s per-line scan. -/
def parseLink (m : DocMeta) (line : List Char) : DocMeta :=
  match matchTag linkTag line with
  | some v => if m.link = "" then { m with link := v } else m
  | none => m

/-- `@version` check; on a successful capture with the field still unset the
source `continue`s, otherwise it falls through to the `@link` check. -/
def parseVersion (m : DocMeta) (line : List Char) : DocMeta :=
  match matchTag versionTag line with
  | some v => if m.version = "" then { m with version := v } else parseLink m line
  | none => parseLink m line

/-- `@author` check, falling through to `@version`/`@link`. -/
def parseAuthor (m : DocMeta) (line : List Char) : DocMeta :=
  match matchTag authorTag line with
  | some v => if m.author = "" then { m with author := v } else parseVersion m line
  | none => parseVersion m line

/-- The whole per-line body of `_parse_docblock`'s loop, starting with the
`@package` check. -/
def parseDocLine (m : DocMeta) (line : List Char) : DocMeta :=
  match matchTag pkgTag line with
  | some v => if m.package = "" then { m with package := v } else parseAuthor m line
  | none => parseAuthor m line

/-- Source `_parse_docblock`. -/
def _parse_docblock (doc : String) : DocMeta :=
  let lines := _docblock_lines doc
  lines.foldl parseDocLine
    { package := "", author := "", version := "", link := "",
      description := ⟨_pick_first_nonempty lines⟩ }

theorem parseLink_package (m : DocMeta) (line : List Char) :
    (parseLink m line).package = m.package := by
  unfold parseLink
  split
  · split <;> rfl
  · rfl

theorem parseLink_author (m : DocMeta) (line : List Char) :
    (parseLink m line).author = m.author := by
  unfold parseLink
  split
  · split <;> rfl
  · rfl

theorem parseLink_version (m : DocMeta) (line : List Char) :
    (parseLink m line).version = m.version := by
  unfold parseLink
  split
  · split <;> rfl
  · rfl

theorem parseLink_description (m : DocMeta) (line : List Char) :
    (parseLink m line).description = m.description := by
  unfold parseLink
  split
  · split <;> rfl
  · rfl

theorem parseVersion_package (m : DocMeta) (line : List Char) :
    (parseVersion m line).package = m.package := by
  unfold parseVersion
  split
  · split
    · rfl
    · exact parseLink_package m line
  · exact parseLink_package m line

theorem parseVersion_author (m : DocMeta) (line : List Char) :
    (parseVersion m line).author = m.author := by
  unfold parseVersion
  split
  · split
    · rfl
    · exact parseLink_author m line
  · exact parseLink_author m line

theorem parseVersion_description (m : DocMeta) (line : List Char) :
    (parseVersion m line).description = m.description := by
  unfold parseVersion
  split
  · split
    · rfl
    · exact parseLink_description m line
  · exact parseLink_description m line

theorem parseAuthor_package (m : DocMeta) (line : List Char) :
    (parseAuthor m line).package = m.package := by
  unfold parseAuthor
  split
  · split
    · rfl
    · exact parseVersion_package m line
  · exact parseVersion_package m line

theorem parseAuthor_description (m : DocMeta) (line : List Char) :
    (parseAuthor m line).description = m.description := by
  unfold parseAuthor
  split
  · split
    · rfl
    · exact parseVersion_description m line
  · exact parseVersion_description m line

theorem parseDocLine_description (m : DocMeta) (line : List Char) :
    (parseDocLine m line).description = m.description := by
  unfold parseDocLine
  split
  · split
    · rfl
    · exact parseAuthor_description m line
  · exact parseAuthor_description m line

theorem matchTag_take {tag line : List Char} {v : String}
    (h : matchTag tag line = some v) :
    (line.map pyToLower).take tag.length = tag := by
  simp only [matchTag] at h
  split at h
  · next hc => rw [← List.map_take]; exact hc.1
  · exact Option.noConfusion h

/-- Two different tags cannot match the same line: the matched prefixes
agree with the line's lowercasing, hence with each other. -/
theorem matchTag_excl {t1 t2 line : List Char} {v : String} (k : Nat)
    (hk1 : k ≤ t1.length) (hk2 : k ≤ t2.length)
    (hne : t1.take k ≠ t2.take k) (h : matchTag t2 line = some v) :
    matchTag t1 line = none := by
  cases hm : matchTag t1 line with
  | none => rfl
  | some w =>
      have h1 := matchTag_take hm
      have h2 := matchTag_take h
      have : t1.take k = t2.take k := by
        rw [← h1, ← h2, List.take_take, List.take_take,
          Nat.min_eq_left hk1, Nat.min_eq_left hk2]
      exact (hne this).elim

theorem stripList_eq_nil_iff {p : Char → Bool} {l : List Char} :
    stripList p l = [] ↔ ∀ c ∈ l, p c = true := by
  unfold stripList
  rw [List.rdropWhile_eq_nil_iff]
  constructor
  · intro h c hc
    rw [← List.takeWhile_append_dropWhile (p := p) (l := l)] at hc
    rcases List.mem_append.mp hc with hc | hc
    · exact List.mem_takeWhile_imp hc
    · exact h c hc
  · intro h c hc
    exact h c ((List.dropWhile_suffix p).subset hc)

/-- On a stripped line (every `_docblock_lines` output is stripped), a
successful tag match always captures a non-empty value: the line's last
character is not whitespace and survives into the captured remainder. -/
theorem matchTag_value_ne {tag line : List Char} {v : String}
    (hline : ∃ z, line = pyStripL z) (h : matchTag tag line = some v) :
    v ≠ "" := by
  obtain ⟨z, rfl⟩ := hline
  simp only [matchTag] at h
  split at h
  · next hc =>
      obtain ⟨-, hlen, -⟩ := hc
      injection h with h'
      intro hv
      rw [← h'] at hv
      have hv' : pyStripL ((pyStripL z).drop tag.length) = [] :=
        congrArg String.data hv
      have hall := (stripList_eq_nil_iff (p := isPySpace)).mp hv'
      have hne : (pyStripL z).drop tag.length ≠ [] := by
        intro h0
        rw [h0] at hlen
        simp at hlen
      have hmem := List.getLast_mem hne
      have hsp : isPySpace (((pyStripL z).drop tag.length).getLast hne) = true :=
        hall _ hmem
      have hlast : (pyStripL z).getLast? =
          some (((pyStripL z).drop tag.length).getLast hne) := by
        conv_lhs => rw [← List.take_append_drop tag.length (pyStripL z)]
        rw [List.getLast?_append_of_ne_nil _ hne, List.getLast?_eq_getLast _ hne]
      have := @stripList_getLast_not isPySpace z _ hlast
      rw [hsp] at this
      exact Bool.noConfusion this
  · exact Option.noConfusion h

theorem excl_pkg_of_author {line : List Char} {v : String}
    (h : matchTag authorTag line = some v) : matchTag pkgTag line = none :=
  matchTag_excl 2 (by decide) (by decide) (by decide) h

theorem excl_pkg_of_version {line : List Char} {v : String}
    (h : matchTag versionTag line = some v) : matchTag pkgTag line = none :=
  matchTag_excl 2 (by decide) (by decide) (by decide) h

theorem excl_pkg_of_link {line : List Char} {v : String}
    (h : matchTag linkTag line = some v) : matchTag pkgTag line = none :=
  matchTag_excl 2 (by decide) (by decide) (by decide) h

theorem excl_author_of_version {line : List Char} {v : String}
    (h : matchTag versionTag line = some v) : matchTag authorTag line = none :=
  matchTag_excl 2 (by decide) (by decide) (by decide) h

theorem excl_author_of_link {line : List Char} {v : String}
    (h : matchTag linkTag line = some v) : matchTag authorTag line = none :=
  matchTag_excl 2 (by decide) (by decide) (by decide) h

theorem excl_version_of_link {line : List Char} {v : String}
    (h : matchTag linkTag line = some v) : matchTag versionTag line = none :=
  matchTag_excl 2 (by decide) (by decide) (by decide) h

theorem step_none_package {m : DocMeta} {line : List Char}
    (h : matchTag pkgTag line = none) :
    (parseDocLine m line).package = m.package := by
  unfold parseDocLine
  rw [h]
  exact parseAuthor_package m line

theorem step_some_package {m : DocMeta} {line : List Char} {v : String}
    (h : matchTag pkgTag line = some v) :
    (parseDocLine m line).package = if m.package = "" then v else m.package := by
  unfold parseDocLine
  rw [h]
  by_cases hp : m.package = ""
  · simp [hp]
  · simp [hp, parseAuthor_package]

theorem step_none_author {m : DocMeta} {line : List Char}
    (h : matchTag authorTag line = none) :
    (parseDocLine m line).author = m.author := by
  have hA : (parseAuthor m line).author = m.author := by
    unfold parseAuthor
    rw [h]
    exact parseVersion_author m line
  unfold parseDocLine
  cases hmp : matchTag pkgTag line with
  | some w => by_cases hp : m.package = "" <;> simp [hp, hA]
  | none => exact hA

theorem step_some_author {m : DocMeta} {line : List Char} {v : String}
    (h : matchTag authorTag line = some v) :
    (parseDocLine m line).author = if m.author = "" then v else m.author := by
  unfold parseDocLine
  rw [excl_pkg_of_author h]
  unfold parseAuthor
  rw [h]
  by_cases ha : m.author = ""
  · simp [ha]
  · simp [ha, parseVersion_author]

theorem parseVersion_version_of_none {m : DocMeta} {line : List Char}
    (h : matchTag versionTag line = none) :
    (parseVersion m line).version = m.version := by
  unfold parseVersion
  rw [h]
  exact parseLink_version m line

theorem parseAuthor_version_of_none {m : DocMeta} {line : List Char}
    (h : matchTag versionTag line = none) :
    (parseAuthor m line).version = m.version := by
  unfold parseAuthor
  cases hma : matchTag authorTag line with
  | some u => by_cases hp : m.author = "" <;>
      simp [hp, parseVersion_version_of_none h]
  | none => exact parseVersion_version_of_none h

theorem step_none_version {m : DocMeta} {line : List Char}
    (h : matchTag versionTag line = none) :
    (parseDocLine m line).version = m.version := by
  unfold parseDocLine
  cases hmp : matchTag pkgTag line with
  | some w => by_cases hp : m.package = "" <;>
      simp [hp, parseAuthor_version_of_none h]
  | none => exact parseAuthor_version_of_none h

theorem step_some_version {m : DocMeta} {line : List Char} {v : String}
    (h : matchTag versionTag line = some v) :
    (parseDocLine m line).version = if m.version = "" then v else m.version := by
  unfold parseDocLine
  rw [excl_pkg_of_version h]
  unfold parseAuthor
  rw [excl_author_of_version h]
  unfold parseVersion
  rw [h]
  by_cases hv : m.version = ""
  · simp [hv]
  · simp [hv, parseLink_version]

theorem parseLink_link_of_none {m : DocMeta} {line : List Char}
    (h : matchTag linkTag line = none) :
    (parseLink m line).link = m.link := by
  unfold parseLink
  rw [h]

theorem parseVersion_link_of_none {m : DocMeta} {line : List Char}
    (h : matchTag linkTag line = none) :
    (parseVersion m line).link = m.link := by
  unfold parseVersion
  cases hmv : matchTag versionTag line with
  | some u => by_cases hp : m.version = "" <;>
      simp [hp, parseLink_link_of_none h]
  | none => exact parseLink_link_of_none h

theorem parseAuthor_link_of_none {m : DocMeta} {line : List Char}
    (h : matchTag linkTag line = none) :
    (parseAuthor m line).link = m.link := by
  unfold parseAuthor
  cases hma : matchTag authorTag line with
  | some u => by_cases hp : m.author = "" <;>
      simp [hp, parseVersion_link_of_none h]
  | none => exact parseVersion_link_of_none h

theorem step_none_link {m : DocMeta} {line : List Char}
    (h : matchTag linkTag line = none) :
    (parseDocLine m line).link = m.link := by
  unfold parseDocLine
  cases hmp : matchTag pkgTag line with
  | some w => by_cases hp : m.package = "" <;>
      simp [hp, parseAuthor_link_of_none h]
  | none => exact parseAuthor_link_of_none h

theorem step_some_link {m : DocMeta} {line : List Char} {v : String}
    (h : matchTag linkTag line = some v) :
    (parseDocLine m line).link = if m.link = "" then v else m.link := by
  unfold parseDocLine
  rw [excl_pkg_of_link h]
  unfold parseAuthor
  rw [excl_author_of_link h]
  unfold parseVersion
  rw [excl_version_of_link h]
  unfold parseLink
  rw [h]
  by_cases hl : m.link = ""
  · simp [hl]
  · simp [hl]

/-- Generic first-occurrence-wins lemma for the four tag fields: provided a
successful match always captures a non-empty value, folding the per-line
parser computes, for a field starting blank, the value of the first line
matching its tag. -/
theorem foldl_first_wins (get : DocMeta → String) (tagT : List Char)
    (stepNone : ∀ (m : DocMeta) (line : List Char),
      matchTag tagT line = none → get (parseDocLine m line) = get m)
    (stepSome : ∀ (m : DocMeta) (line : List Char) (v : String),
      matchTag tagT line = some v →
        get (parseDocLine m line) = if get m = "" then v else get m) :
    ∀ (lines : List (List Char)) (m : DocMeta),
      (∀ l ∈ lines, ∀ v, matchTag tagT l = some v → v ≠ "") →
      get (lines.foldl parseDocLine m) =
        if get m = "" then ((lines.findSome? (matchTag tagT)).getD "") else get m
  | [], m, hv => by
      by_cases h : get m = "" <;> simp [h]
  | line :: lines, m, hv => by
      have hv' : ∀ l ∈ lines, ∀ v, matchTag tagT l = some v → v ≠ "" :=
        fun l hl => hv l (List.mem_cons_of_mem _ hl)
      rw [List.foldl_cons,
        foldl_first_wins get tagT stepNone stepSome lines (parseDocLine m line) hv']
      cases hmt : matchTag tagT line with
      | none =>
          rw [stepNone m line hmt,
            List.findSome?_cons_of_isNone _ (by simp [hmt])]
      | some v =>
          have hvne := hv line (List.mem_cons_self _ _) v hmt
          rw [stepSome m line v hmt,
            List.findSome?_cons_of_isSome _ (by simp [hmt]), hmt]
          by_cases hp : get m = ""
          · simp [hp, hvne]
          · simp [hp]

theorem foldl_parse_description :
    ∀ (lines : List (List Char)) (m : DocMeta),
      (lines.foldl parseDocLine m).description = m.description
  | [], m => rfl
  | line :: lines, m => by
      rw [List.foldl_cons, foldl_parse_description lines (parseDocLine m line),
        parseDocLine_description]

/-- Every line produced by `_docblock_lines` is `str.strip()`-normal. -/
theorem docblock_lines_stripped {doc : String} {l : List Char}
    (hl : l ∈ _docblock_lines doc) : ∃ z, l = pyStripL z := by
  obtain ⟨raw, -, rfl⟩ := List.mem_map.mp hl
  exact ⟨_, rfl⟩

/-- The comment block of the claim's concrete example, with a second
conflicting `@author` tag appearing later in the block. -/
def sampleDocblock : String :=
  "/**\n * A sample plugin.\n *\n * @package Foo\n * @author Jane\n * @version 1.2\n * @link http://example.com\n * @author Evil\n */"

/-- C6: the metadata parser sets the description to the first non-empty
stripped line not beginning with `@`, and each of the four recognized tags
takes its value from the first line (case-insensitive) carrying that tag,
ignoring later occurrences; on the claim's sample block (which has a later
conflicting `@author Evil` tag) this yields exactly the five expected field
values. -/
theorem parse_docblock_first_wins :
    (∀ doc : String,
      (_parse_docblock doc).description =
        ⟨_pick_first_nonempty (_docblock_lines doc)⟩ ∧
      (_parse_docblock doc).package =
        (((_docblock_lines doc).findSome? (matchTag pkgTag)).getD "") ∧
      (_parse_docblock doc).author =
        (((_docblock_lines doc).findSome? (matchTag authorTag)).getD "") ∧
      (_parse_docblock doc).version =
        (((_docblock_lines doc).findSome? (matchTag versionTag)).getD "") ∧
      (_parse_docblock doc).link =
        (((_docblock_lines doc).findSome? (matchTag linkTag)).getD "")) ∧
    _parse_docblock sampleDocblock =
      ⟨"Foo", "Jane", "1.2", "http://example.com", "A sample plugin."⟩ := by
  constructor
  · intro doc
    have hv : ∀ (tagT : List Char), ∀ l ∈ _docblock_lines doc, ∀ v,
        matchTag tagT l = some v → v ≠ "" :=
      fun tagT l hl v hm => matchTag_value_ne (docblock_lines_stripped hl) hm
    refine ⟨?_, ?_, ?_, ?_, ?_⟩
    · exact foldl_parse_description (_docblock_lines doc) _
    · have h := foldl_first_wins DocMeta.package pkgTag
        (fun m line hm => step_none_package hm)
        (fun m line v hm => step_some_package hm)
        (_docblock_lines doc)
        { package := "", author := "", version := "", link := "",
          description := ⟨_pick_first_nonempty (_docblock_lines doc)⟩ }
        (hv pkgTag)
      simpa using h
    · have h := foldl_first_wins DocMeta.author authorTag
        (fun m line hm => step_none_author hm)
        (fun m line v hm => step_some_author hm)
        (_docblock_lines doc)
        { package := "", author := "", version := "", link := "",
          description := ⟨_pick_first_nonempty (_docblock_lines doc)⟩ }
        (hv authorTag)
      simpa using h
    · have h := foldl_first_wins DocMeta.version versionTag
        (fun m line hm => step_none_version hm)
        (fun m line v hm => step_some_version hm)
        (_docblock_lines doc)
        { package := "", author := "", version := "", link := "",
          description := ⟨_pick_first_nonempty (_docblock_lines doc)⟩ }
        (hv versionTag)
      simpa using h
    · have h := foldl_first_wins DocMeta.link linkTag
        (fun m line hm => step_none_link hm)
        (fun m line v hm => step_some_link hm)
        (_docblock_lines doc)
        { package := "", author := "", version := "", link := "",
          description := ⟨_pick_first_nonempty (_docblock_lines doc)⟩ }
        (hv linkTag)
      simpa using h
  · decide

/-! ### Docblock location, class marker, and project building -/

/-- Python `str.find`: `findSubAux needle hay i` is the absolute index of the
first occurrence of `needle` in `hay`, where `hay` starts at absolute
index `i`. -/
def findSubAux (needle : List Char) : List Char → Nat → Option Nat
  | [], i => if needle = [] then some i else none
  | c :: rest, i =>
      if needle.isPrefixOf (c :: rest) then some i
      else findSubAux needle rest (i + 1)

/-- Source `_first_docblock`: look for `/**` in the first 8000 characters;
then for `*/` at or after it within the same prefix; return the slice
including the closing `*/`, or `""`. -/
def _first_docblock (text : String) : String :=
  let head := text.data.take 8000
  match findSubAux ("/**" : String).data head 0 with
  | none => ""
  | some start =>
      match findSubAux ("*/" : String).data (head.drop start) start with
      | none => ""
      | some e => ⟨(head.drop start).take (e + 2 - start)⟩

def emptyMeta : DocMeta :=
  { package := "", author := "", version := "", link := "", description := "" }

/-- Lines 228–229 of the source (`_make_project`): parse the first docblock,
or take the all-empty record when there is none. -/
def metaOf (text : String) : DocMeta :=
  if _first_docblock text = "" then emptyMeta else _parse_docblock (_first_docblock text)

/-- Case-insensitive literal prefix: remainder of `cs` after `pat` (given in
lowercase) when it matches case-insensitively. -/
def dropCI (pat : List Char) (cs : List Char) : Option (List Char) :=
  if (cs.take pat.length).map pyToLower = pat then some (cs.drop pat.length) else none

/-- Model of `re.sub(r"(?i)^typecho[-_]?<kind>[-_]+", "", name)` from
`_derive_display_name`: `typecho`, an optional single hyphen/underscore, the
kind word and at least one trailing hyphen/underscore are removed from the
front when they all match; otherwise the input is returned unchanged. -/
def stripTypechoLead (kindWord : List Char) (cs : List Char) : List Char :=
  match dropCI ("typecho" : String).data cs with
  | none => cs
  | some r1 =>
      let r2? : Option (List Char) :=
        match r1 with
        | c :: rest =>
            if c = '-' ∨ c = '_' then
              match dropCI kindWord rest with
              | some r => some r
              | none => dropCI kindWord r1
            else dropCI kindWord r1
        | [] => dropCI kindWord r1
      match r2? with
      | none => cs
      | some r2 =>
          if r2.takeWhile (fun c => c = '-' || c = '_') = [] then cs
          else r2.dropWhile (fun c => c = '-' || c = '_')

/-- Source `_derive_display_name`. -/
def _derive_display_name (repo_name : String) (kind : String) : String :=
  let name := pyStrip repo_name
  let name : String :=
    if kind = "plugin" then ⟨stripTypechoLead ("plugin" : String).data name.data⟩
    else if kind = "theme" then ⟨stripTypechoLead ("theme" : String).data name.data⟩
    else name
  let name := pyStrip name
  if name = "" then repo_name else name

/-- Regex word character `[A-Za-z0-9_]` (also the `\b` class). -/
def isWordCh (c : Char) : Bool := isAsciiAlnum c || c = '_'

/-- Anchored match of `class\s+([A-Za-z0-9_]+)_Plugin\b`: after `class` and
at least one whitespace character, the maximal word run must consist of a
non-empty group followed by the literal `_Plugin` (the trailing `\b` forces
the match to exhaust the word run). -/
def classMarkerAt (cs : List Char) : Option (List Char) :=
  if ("class" : String).data.isPrefixOf cs then
    let r1 := cs.drop 5
    let r2 := r1.dropWhile isPySpace
    let w := r2.takeWhile isWordCh
    if r1.takeWhile isPySpace = [] then none
    else if 8 ≤ w.length ∧ w.drop (w.length - 7) = ("_Plugin" : String).data then
      some (w.take (w.length - 7))
    else none
  else none

/-- Leftmost search for the class pattern, tracking the previous character
for the leading `\b` word boundary. -/
def classMarkerGo : Option Char → List Char → Option (List Char)
  | _, [] => none
  | prev, c :: rest =>
      let bOK := match prev with
        | none => true
        | some p => !(isWordCh p)
      match (if bOK then classMarkerAt (c :: rest) else none) with
      | some g => some g
      | none => classMarkerGo (some c) rest

/-- Model of source `_extract_class_prefix`: leftmost
`\bclass\s+([A-Za-z0-9_]+)_Plugin\b` in the first 16000 characters, the
captured group stripped; `""` when absent.  (The name avoids the original's
final word for technical reasons.) -/
def extractClassMarker (text : String) : String :=
  match classMarkerGo none (text.data.take 16000) with
  | some g => pyStrip ⟨g⟩
  | none => ""

/-- `re.sub(r"[^A-Za-z0-9_-]+", "-", s).strip("-")` from `_build_dir`. -/
def dirSanitize (cs : List Char) : List Char :=
  stripList (· = '-')
    (collapseRuns (fun c => isAsciiAlnum c || c = '-' || c = '_') cs)

/-- Source `_build_dir`. -/
def _build_dir (kind : String) (repo_name : String) (meta : DocMeta)
    (classMark : String) : String :=
  let package := pyStrip meta.package
  if _is_valid_dir package then package
  else if _is_valid_dir classMark then classMark
  else
    let derived := _derive_display_name repo_name kind
    if _is_valid_dir derived then derived
    else
      let s1 : String := ⟨dirSanitize derived.data⟩
      if _is_valid_dir s1 then s1
      else
        let s2 : String := ⟨dirSanitize repo_name.data⟩
        if _is_valid_dir s2 then s2 else ""

/-- A GitHub repository descriptor as built by `_search_repos`. -/
structure GithubRepo where
  owner : String
  repo : String
  html_url : String
  description : String
  default_branch : String
  homepage : String
deriving DecidableEq

/-- A catalog record (the dict built by `_make_project` / stored in
`repo.json`).  String fields use `""` for Python-falsy or absent values;
the two boolean flags are `Option Bool` since `_merge_projects` tests for
key presence. -/
structure Project where
  id : String
  name : String
  type : String
  link : String
  isGithub : Option Bool
  direct : Option Bool
  version : String
  typecho : String
  author : String
  donate : String
  description : String
  dir : String
deriving DecidableEq

/-- `s.lower().startswith(pre)` for a lowercase ASCII pattern. -/
def lowerStartsWith (pre : List Char) (s : String) : Bool :=
  pre.isPrefixOf (s.data.map pyToLower)

/-- Source `_make_project`. -/
def _make_project (kind : String) (gr : GithubRepo) (file_text : String) : Project :=
  let meta := metaOf file_text
  let classMark := if kind = "plugin" then extractClassMarker file_text else ""
  let install_dir := _build_dir kind gr.repo meta classMark
  let display_name := _derive_display_name gr.repo kind
  let display_name :=
    if meta.package ≠ "" ∧ 40 < display_name.data.length then meta.package
    else display_name
  let mlink := pyStrip meta.link
  let donate : String :=
    if mlink ≠ "" ∧ lowerStartsWith ("https://github.com/" : String).data mlink = false
    then mlink else ""
  let donate : String :=
    if donate = "" ∧ gr.homepage ≠ "" ∧
        (lowerStartsWith ("http://" : String).data gr.homepage ||
         lowerStartsWith ("https://" : String).data gr.homepage)
    then gr.homepage else donate
  let version := _clean_version meta.version
  let author := pyStrip meta.author
  let author := if author = "" then gr.owner else author
  let descr := if gr.description ≠ "" then gr.description else meta.description
  let slug1 := _slugify (if install_dir ≠ "" then install_dir else gr.repo)
  let project_id : String :=
    kind ++ "-" ++ (if slug1 ≠ "" then slug1
                    else _slugify (gr.owner ++ "-" ++ gr.repo))
  { id := project_id
    name := display_name
    type := kind
    link := if gr.html_url ≠ "" then gr.html_url
            else "https://github.com/" ++ gr.owner ++ "/" ++ gr.repo
    isGithub := some true
    direct := some true
    version := version
    typecho := ""
    author := author
    donate := donate
    description := descr
    dir := if install_dir ≠ "" then install_dir else gr.repo }

theorem lowerStartsWith_ne_empty {pre : List Char} {s : String}
    (hpre : pre ≠ []) (h : lowerStartsWith pre s = true) : s ≠ "" := by
  intro h0
  subst h0
  unfold lowerStartsWith at h
  cases pre with
  | nil => exact hpre rfl
  | cons c l => simp [List.isPrefixOf] at h

/-- C8: for every built project record, the donation link equals the
stripped metadata `link` tag whenever that tag is non-empty and does not
point at the canonical hosting domain (case-insensitive
`https://github.com/` prefix); otherwise it equals the repository's declared
homepage when that begins (case-insensitively) with `http://` or
`https://`; otherwise it is empty. -/
theorem make_project_donate (kind : String) (gr : GithubRepo) (file_text : String) :
    (_make_project kind gr file_text).donate =
      (if pyStrip (metaOf file_text).link ≠ "" ∧
          lowerStartsWith ("https://github.com/" : String).data
            (pyStrip (metaOf file_text).link) = false
       then pyStrip (metaOf file_text).link
       else if lowerStartsWith ("http://" : String).data gr.homepage ||
                lowerStartsWith ("https://" : String).data gr.homepage
            then gr.homepage else "") := by
  unfold _make_project
  dsimp only
  by_cases h1 : pyStrip (metaOf file_text).link ≠ "" ∧
      lowerStartsWith ("https://github.com/" : String).data
        (pyStrip (metaOf file_text).link) = false
  · rw [if_pos h1, if_pos h1, if_neg]
    intro hc
    exact h1.1 hc.1
  · rw [if_neg h1, if_neg h1]
    by_cases h2 : (lowerStartsWith ("http://" : String).data gr.homepage ||
        lowerStartsWith ("https://" : String).data gr.homepage) = true
    · have hne : gr.homepage ≠ "" := by
        rcases Bool.or_eq_true_iff.mp h2 with h' | h'
        · exact lowerStartsWith_ne_empty (by decide) h'
        · exact lowerStartsWith_ne_empty (by decide) h'
      rw [if_pos ⟨rfl, hne, h2⟩, if_pos h2]
    · rw [if_neg, if_neg (by simpa using h2)]
      intro hc
      exact h2 hc.2.2

/-- C10: if the first 8000 characters contain no `/**`, or contain a first
`/**` with no subsequent `*/` inside the same prefix, then `_first_docblock`
is empty and metadata extraction yields the all-empty record — even when a
complete comment block exists later in the text (second bundle: a text of
8019 characters whose only docblock starts at index 8000). -/
theorem first_docblock_prefix_only :
    (∀ text : String,
      (findSubAux ("/**" : String).data (text.data.take 8000) 0 = none ∨
        ∃ i, findSubAux ("/**" : String).data (text.data.take 8000) 0 = some i ∧
          findSubAux ("*/" : String).data ((text.data.take 8000).drop i) i = none) →
      _first_docblock text = "" ∧ metaOf text = emptyMeta) ∧
    (metaOf ⟨List.replicate 8000 'x' ++ ("/** @author Jane */" : String).data⟩ =
        emptyMeta ∧
      ("/** @author Jane */" : String).data.isPrefixOf
        ((List.replicate 8000 'x' ++ ("/** @author Jane */" : String).data).drop 8000)
        = true) := by
  have hmain : ∀ text : String,
      (findSubAux ("/**" : String).data (text.data.take 8000) 0 = none ∨
        ∃ i, findSubAux ("/**" : String).data (text.data.take 8000) 0 = some i ∧
          findSubAux ("*/" : String).data ((text.data.take 8000).drop i) i = none) →
      _first_docblock text = "" ∧ metaOf text = emptyMeta := by
    intro text h
    have hdoc : _first_docblock text = "" := by
      simp only [_first_docblock]
      rcases h with h | ⟨i, h1, h2⟩
      · rw [h]
      · have h2' : findSubAux ['*', '/'] ((text.data.take 8000).drop i) i = none := h2
        rw [h1]
        dsimp only
        rw [h2']
    refine ⟨hdoc, ?_⟩
    unfold metaOf
    rw [if_pos hdoc]
  refine ⟨hmain, ?_, ?_⟩
  · have hslash : ∀ hay : List Char, (∀ c ∈ hay, c ≠ '/') →
        ∀ i, findSubAux ("/**" : String).data hay i = none := by
      intro hay
      induction hay with
      | nil => intro _ i; rfl
      | cons c rest ih =>
          intro hc i
          have hc' : c ≠ '/' := hc c (List.mem_cons_self _ _)
          simp only [findSubAux]
          rw [if_neg, ih (fun x hx => hc x (List.mem_cons_of_mem _ hx)) (i + 1)]
          show ¬(("/**" : String).data.isPrefixOf (c :: rest) = true)
          simp only [show ("/**" : String).data = '/' :: '*' :: '*' :: [] from rfl,
            List.isPrefixOf, Bool.and_eq_true, beq_iff_eq]
          exact fun hand => hc' hand.1.symm
    have htake : ((⟨List.replicate 8000 'x' ++
        ("/** @author Jane */" : String).data⟩ : String).data).take 8000 =
        List.replicate 8000 'x' := by
      show (List.replicate 8000 'x' ++ _).take 8000 = _
      exact List.take_left' (List.length_replicate 8000 'x')
    refine (hmain _ (Or.inl ?_)).2
    rw [htake]
    exact hslash _ (fun c hc => by rw [List.eq_of_mem_replicate hc]; decide) 0
  · rw [List.drop_left' (List.length_replicate 8000 'x')]
    simp [ List.isPrefixOf_iff_prefix]

/-- Witness for C10 at a concrete input: a short text with a `/*` comment
but no `/**` docblock. -/
theorem first_docblock_prefix_only_witness :
    _first_docblock "no block /* here */" = "" ∧
    metaOf "no block /* here */" = emptyMeta :=
  first_docblock_prefix_only.1 "no block /* here */" (Or.inl (by decide))

/-! ### The catalog merger (`_merge_projects` and its inner `unique_id`) -/

/-- Python `s.split("/")`: split on every slash, keeping empty segments. -/
def splitOnSlash (cs : List Char) : List (List Char) :=
  cs.foldr (fun c acc =>
    if c = '/' then [] :: acc
    else match acc with
      | g :: gs => (c :: g) :: gs
      | [] => [[c]]) [[]]

/-- `cur.get("link", "").split("/")[-1]`: the last path segment of a link,
the "weak default" a stored directory is compared against. -/
def lastSeg (link : String) : String := ⟨(splitOnSlash link.data).getLastD []⟩

/-- The install-directory update of `_merge_projects` (lines 311–314): take
the incoming directory when it is non-empty and the current one is empty or
equals the weak default `w`; otherwise take it when it differs from the
current one and validates as a directory name. -/
def dirStep (w s d : String) : String :=
  if d ≠ "" ∧ (s = "" ∨ s = w) then d
  else if d ≠ "" ∧ s ≠ d ∧ _is_valid_dir d then d
  else s

/-- One fill-in-blank field update (line 315–317): copy the incoming value
only when the current one is falsy and the incoming one truthy. -/
def fillStep (s d : String) : String := if s = "" ∧ d ≠ "" then d else s

/-- Flag defaulting (lines 318–321): set to `True` only when the key is
absent. -/
def flagStep (o : Option Bool) : Option Bool := if o = none then some true else o

/-- The whole update applied to an existing record when an incoming record
shares its canonical link (lines 310–321).  The source's statements write
pairwise-distinct fields and each reads only the field it writes plus the
never-modified `link`, so the sequential mutation is recorded
componentwise. -/
def updateProject (cur inc : Project) : Project :=
  { cur with
    dir := dirStep (lastSeg cur.link) cur.dir inc.dir
    version := fillStep cur.version inc.version
    typecho := fillStep cur.typecho inc.typecho
    author := fillStep cur.author inc.author
    donate := fillStep cur.donate inc.donate
    description := fillStep cur.description inc.description
    name := fillStep cur.name inc.name
    type := fillStep cur.type inc.type
    isGithub := flagStep cur.isGithub
    direct := flagStep cur.direct }

/-- The record `by_link[L]` denotes: the dict maps each stripped truthy link
to the *last* existing record carrying it (later insertions overwrite), and
appended records register fresh keys; in both cases the denoted record is
the last one in the current output list whose truthy link strips to `L`. -/
def lastMatch (out : List Project) (L : String) : Option Nat :=
  match out with
  | [] => none
  | p :: rest =>
      match lastMatch rest L with
      | some i => some (i + 1)
      | none => if p.link ≠ "" ∧ pyStrip p.link = L then some 0 else none

/-- `used_ids`: the set of truthy ids of the existing records (a list whose
membership is what matters). -/
def usedIds (existing : List Project) : List String :=
  (existing.filter (fun p => p.id ≠ "")).map Project.id

/-- The candidate id `f"{base}-{i}"`. -/
def candId (base : String) (i : Nat) : String := base ++ "-" ++ Nat.repr i

/-- The `while` loop of `unique_id`, with explicit fuel.  The fuel chosen in
`unique_id` is provably sufficient (`uniqueIdGo_not_mem` below), so the
fuel-exhausted base case is never reached and the function computes exactly
the loop's result: the first free candidate index. -/
def uniqueIdGo (base : String) (used : List String) : Nat → Nat → String
  | i, 0 => candId base i
  | i, fuel + 1 =>
      if candId base i ∈ used then uniqueIdGo base used (i + 1) fuel
      else candId base i

/-- Length of the longest string in `used`. -/
def maxLen (used : List String) : Nat := used.foldr (fun s m => max s.length m) 0

/-- Source `unique_id`: return `base` if free, else `base-2`, `base-3`, …
until free.  The fuel `10 ^ (maxLen used + 1)` suffices because the
candidate at index `10 ^ (maxLen used + 1)` is longer than every used id. -/
def unique_id (base : String) (used : List String) : String :=
  if base ∈ used then uniqueIdGo base used 2 (10 ^ (maxLen used + 1)) else base

/-- Junk default for positional access; every access is at a proven-in-range
index. -/
def pd : Project :=
  { id := "", name := "", type := "", link := "", isGithub := none,
    direct := none, version := "", typecho := "", author := "", donate := "",
    description := "", dir := "" }

/-- One iteration of `_merge_projects`' loop over the incoming batch.  The
state is the output list (existing records first, shared with `by_link`'s
values, so updates are in place) and the `used_ids` set. -/
def mergeStep (st : List Project × List String) (inc : Project) :
    List Project × List String :=
  let link := pyStrip inc.link
  if link = "" then st
  else
    match lastMatch st.1 link with
    | some i => (st.1.set i (updateProject (st.1.getD i pd) inc), st.2)
    | none =>
        let newid := unique_id inc.id st.2
        (st.1 ++ [{ inc with id := newid }], newid :: st.2)

/-- Source `_merge_projects`. -/
def _merge_projects (existing incoming : List Project) : List Project :=
  (incoming.foldl mergeStep (existing, usedIds existing)).1

/-- The existing record of the claim's fill-in-blanks example. -/
def fillExisting : Project :=
  { id := "p-existing", name := "X", type := "plugin",
    link := "https://github.com/a/b", isGithub := some true,
    direct := some true, version := "1.0", typecho := "", author := "",
    donate := "", description := "", dir := "MyDir" }

/-- The incoming record of the claim's fill-in-blanks example. -/
def fillIncoming : Project :=
  { id := "p-incoming", name := "X", type := "plugin",
    link := "https://github.com/a/b", isGithub := some true,
    direct := some true, version := "2.0", typecho := "", author := "Bob",
    donate := "", description := "", dir := "MyDir" }

/-- C3: when an incoming record's link matches an existing record, the merge
updates that record in place with `updateProject`, and each of the fields
version, typecho, author, donate, description, name and type is overwritten
with the incoming value exactly when the existing value is blank and the
incoming one non-blank, while a set field (and id/link) is left unchanged;
the claim's concrete example holds. -/
theorem merge_fill_blanks :
    (∀ (out : List Project) (used : List String) (inc : Project) (i : Nat),
      pyStrip inc.link ≠ "" → lastMatch out (pyStrip inc.link) = some i →
      mergeStep (out, used) inc =
        (out.set i (updateProject (out.getD i pd) inc), used)) ∧
    (∀ cur inc : Project,
      (updateProject cur inc).version =
        (if cur.version = "" ∧ inc.version ≠ "" then inc.version else cur.version) ∧
      (updateProject cur inc).typecho =
        (if cur.typecho = "" ∧ inc.typecho ≠ "" then inc.typecho else cur.typecho) ∧
      (updateProject cur inc).author =
        (if cur.author = "" ∧ inc.author ≠ "" then inc.author else cur.author) ∧
      (updateProject cur inc).donate =
        (if cur.donate = "" ∧ inc.donate ≠ "" then inc.donate else cur.donate) ∧
      (updateProject cur inc).description =
        (if cur.description = "" ∧ inc.description ≠ "" then inc.description
         else cur.description) ∧
      (updateProject cur inc).name =
        (if cur.name = "" ∧ inc.name ≠ "" then inc.name else cur.name) ∧
      (updateProject cur inc).type =
        (if cur.type = "" ∧ inc.type ≠ "" then inc.type else cur.type) ∧
      (updateProject cur inc).id = cur.id ∧
      (updateProject cur inc).link = cur.link) ∧
    _merge_projects [fillExisting] [fillIncoming] =
      [{ fillExisting with author := "Bob" }] := by
  refine ⟨?_, ?_, by decide⟩
  · intro out used inc i hne hm
    unfold mergeStep
    rw [if_neg hne, hm]
  · intro cur inc
    exact ⟨rfl, rfl, rfl, rfl, rfl, rfl, rfl, rfl, rfl⟩

/-- Witness for C3 at a concrete input, discharging both hypotheses. -/
theorem merge_fill_blanks_witness :
    mergeStep ([fillExisting], usedIds [fillExisting]) fillIncoming =
      ([fillExisting].set 0
        (updateProject ([fillExisting].getD 0 pd) fillIncoming),
       usedIds [fillExisting]) :=
  merge_fill_blanks.1 [fillExisting] (usedIds [fillExisting]) fillIncoming 0
    (by decide) (by decide)

/-! ### Id uniqueness (C2) -/

/-- Decimal length lower bound for `Nat.toDigitsCore`: a number at least
`10 ^ K` prints with at least `K + 1` digits (with adequate fuel). -/
theorem toDigitsCore_length_lb :
    ∀ (K n f : Nat), 10 ^ K ≤ n → n < f →
      K + 1 ≤ (Nat.toDigitsCore 10 f n []).length := by
  intro K
  induction K with
  | zero =>
      intro n f h1 h2
      cases f with
      | zero => omega
      | succ f' =>
          simp only [Nat.toDigitsCore]
          split
          · simp
          · rw [Nat.toDigitsCore_lens_eq]
            omega
  | succ K ih =>
      intro n f h1 h2
      have h10 : 10 ^ K * 10 ≤ n := by
        rw [← pow_succ]
        exact h1
      have hdiv : 10 ^ K ≤ n / 10 := (Nat.le_div_iff_mul_le (by omega)).mpr h10
      have hpow : 1 ≤ 10 ^ K := Nat.one_le_pow _ _ (by omega)
      have hn10 : 10 ≤ n := by
        calc (10 : Nat) = 1 * 10 := by omega
        _ ≤ 10 ^ K * 10 := Nat.mul_le_mul_right 10 hpow
        _ ≤ n := h10
      cases f with
      | zero => omega
      | succ f' =>
          have hne : ¬ n / 10 = 0 := by omega
          simp only [Nat.toDigitsCore]
          rw [if_neg hne, Nat.toDigitsCore_lens_eq]
          have hdl : n / 10 < n := Nat.div_lt_self (by omega) (by omega)
          have hlt : n / 10 < f' := by omega
          have := ih (n / 10) f' hdiv hlt
          omega

/-- A number at least `10 ^ K` has a decimal representation of length at
least `K + 1`. -/
theorem repr_length_lb {K n : Nat} (h : 10 ^ K ≤ n) :
    K + 1 ≤ (Nat.repr n).length := by
  have : (Nat.repr n).length = (Nat.toDigitsCore 10 (n + 1) n []).length := rfl
  rw [this]
  exact toDigitsCore_length_lb K n (n + 1) h (Nat.lt_succ_self n)

theorem candId_length (base : String) (i : Nat) :
    (candId base i).length = base.length + 1 + (Nat.repr i).length := by
  unfold candId
  rw [String.length_append, String.length_append]
  rfl

theorem mem_le_maxLen : ∀ {used : List String} {s : String},
    s ∈ used → s.length ≤ maxLen used := by
  intro used
  induction used with
  | nil => intro s h; simp at h
  | cons u us ih =>
      intro s h
      have hm : maxLen (u :: us) = max u.length (maxLen us) := rfl
      rcases List.mem_cons.mp h with rfl | h'
      · rw [hm]; exact le_max_left _ _
      · rw [hm]; exact le_trans (ih h') (le_max_right _ _)

/-- Some candidate index within the chosen fuel yields an id not in `used`:
the candidate at index `10 ^ (maxLen used + 1)` is strictly longer than
every member of `used`. -/
theorem exists_free (base : String) (used : List String) :
    ∃ k, k ≤ 10 ^ (maxLen used + 1) ∧ candId base (2 + k) ∉ used := by
  set M := maxLen used with hM
  have hX : 10 ≤ 10 ^ (M + 1) := by
    calc (10 : Nat) = 10 ^ 1 := (pow_one 10).symm
    _ ≤ 10 ^ (M + 1) := Nat.pow_le_pow_right (by omega) (by omega)
  refine ⟨10 ^ (M + 1) - 2, by omega, ?_⟩
  intro hmem
  have hlen := mem_le_maxLen hmem
  have h2 : 2 + (10 ^ (M + 1) - 2) = 10 ^ (M + 1) := by omega
  rw [h2, candId_length] at hlen
  have hrepr : (M + 1) + 1 ≤ (Nat.repr (10 ^ (M + 1))).length :=
    repr_length_lb (le_refl _)
  omega

theorem uniqueIdGo_not_mem (base : String) (used : List String) :
    ∀ (fuel i : Nat), (∃ k, k ≤ fuel ∧ candId base (i + k) ∉ used) →
      uniqueIdGo base used i fuel ∉ used := by
  intro fuel
  induction fuel with
  | zero =>
      intro i ⟨k, hk, hfree⟩
      have : k = 0 := by omega
      subst this
      simpa using hfree
  | succ fuel ih =>
      intro i ⟨k, hk, hfree⟩
      simp only [uniqueIdGo]
      by_cases hmem : candId base i ∈ used
      · rw [if_pos hmem]
        apply ih
        cases k with
        | zero => exact absurd hmem (by simpa using hfree)
        | succ k' =>
            exact ⟨k', by omega, by rwa [show i + 1 + k' = i + (k' + 1) by omega]⟩
      · rw [if_neg hmem]
        exact hmem

/-- The id returned by `unique_id` is never already used. -/
theorem unique_id_not_mem (base : String) (used : List String) :
    unique_id base used ∉ used := by
  unfold unique_id
  by_cases h : base ∈ used
  · rw [if_pos h]
    exact uniqueIdGo_not_mem base used _ 2 (exists_free base used)
  · rw [if_neg h]
    exact h

theorem updateProject_id (cur inc : Project) : (updateProject cur inc).id = cur.id := rfl

theorem updateProject_link (cur inc : Project) :
    (updateProject cur inc).link = cur.link := rfl

/-- Setting an index to a value with the same `f`-image leaves the
`f`-image of the list unchanged. -/
theorem map_set_eq {α β : Type} (f : α → β) (d : α) :
    ∀ (out : List α) (i : Nat) (v : α), f v = f (out.getD i d) →
      (out.set i v).map f = out.map f
  | [], i, v, h => rfl
  | p :: rest, 0, v, h => by
      simp only [List.set_cons_zero, List.map_cons]
      rw [show f v = f p from h]
  | p :: rest, i + 1, v, h => by
      simp only [List.set_cons_succ, List.map_cons]
      rw [map_set_eq f d rest i v h]

/-- Invariant of the merge fold: non-empty ids stay pairwise distinct, and
every non-empty id of the output is registered in the used set. -/
theorem merge_nodup_aux :
    ∀ (B : List Project) (out : List Project) (used : List String),
      ((out.map Project.id).filter (fun s => s ≠ "")).Nodup →
      (∀ p ∈ out, p.id ≠ "" → p.id ∈ used) →
      (((B.foldl mergeStep (out, used)).1.map Project.id).filter
          (fun s => s ≠ "")).Nodup ∧
      (∀ p ∈ (B.foldl mergeStep (out, used)).1, p.id ≠ "" →
        p.id ∈ (B.foldl mergeStep (out, used)).2)
  | [], out, used, h1, h2 => ⟨h1, h2⟩
  | b :: B', out, used, h1, h2 => by
      rw [List.foldl_cons]
      by_cases hlink : pyStrip b.link = ""
      · have hstep : mergeStep (out, used) b = (out, used) := by
          unfold mergeStep
          rw [if_pos hlink]
        rw [hstep]
        exact merge_nodup_aux B' out used h1 h2
      · cases hlm : lastMatch out (pyStrip b.link) with
        | some i =>
            have hstep : mergeStep (out, used) b =
                (out.set i (updateProject (out.getD i pd) b), used) := by
              unfold mergeStep
              rw [if_neg hlink, hlm]
            rw [hstep]
            have hmap : (out.set i (updateProject (out.getD i pd) b)).map Project.id =
                out.map Project.id :=
              map_set_eq Project.id pd out i _ (updateProject_id _ _)
            apply merge_nodup_aux B'
            · rw [hmap]
              exact h1
            · intro p hp hne
              have hpid : p.id ∈ (out.set i (updateProject (out.getD i pd) b)).map
                  Project.id := List.mem_map_of_mem _ hp
              rw [hmap] at hpid
              obtain ⟨q, hq, hqid⟩ := List.mem_map.mp hpid
              exact hqid ▸ h2 q hq (by rw [hqid]; exact hne)
        | none =>
            have hstep : mergeStep (out, used) b =
                (out ++ [{ b with id := unique_id b.id used }],
                 unique_id b.id used :: used) := by
              unfold mergeStep
              rw [if_neg hlink, hlm]
            rw [hstep]
            have hnot := unique_id_not_mem b.id used
            apply merge_nodup_aux B'
            · rw [List.map_append]
              rw [List.filter_append]
              by_cases hne : unique_id b.id used = ""
              · have : ([{ b with id := unique_id b.id used }].map Project.id).filter
                    (fun s => s ≠ "") = [] := by
                  simp [hne]
                rw [this, List.append_nil]
                exact h1
              · have hsing : ([{ b with id := unique_id b.id used }].map Project.id).filter
                    (fun s => s ≠ "") = [unique_id b.id used] := by
                  simp [hne]
                rw [hsing]
                refine List.Nodup.append h1 (List.nodup_singleton _) ?_
                intro x hx hx'
                have hx'' : x = unique_id b.id used := by simpa using hx'
                have hxm : x ∈ out.map Project.id := (List.mem_filter.mp hx).1
                obtain ⟨q, hq, hqid⟩ := List.mem_map.mp hxm
                have hxne : x ≠ "" := by
                  have := (List.mem_filter.mp hx).2
                  simpa using this
                have hxu : x ∈ used := hqid ▸ h2 q hq (by rw [hqid]; exact hxne)
                rw [hx''] at hxu
                exact hnot hxu
            · intro p hp hne
              rcases List.mem_append.mp hp with hp' | hp'
              · exact List.mem_cons_of_mem _ (h2 p hp' hne)
              · have : p = { b with id := unique_id b.id used } := by simpa using hp'
                subst this
                exact List.mem_cons_self _ _

/-- The existing record of the claim's id-collision example. -/
def fooExisting : Project :=
  { id := "plugin-foo", name := "Foo", type := "plugin",
    link := "https://github.com/a/foo", isGithub := some true,
    direct := some true, version := "", typecho := "", author := "",
    donate := "", description := "", dir := "Foo" }

/-- The incoming new-link record of the claim's id-collision example,
carrying the already-taken id `plugin-foo`. -/
def fooIncoming : Project :=
  { id := "plugin-foo", name := "Foo2", type := "plugin",
    link := "https://github.com/b/foo2", isGithub := some true,
    direct := some true, version := "", typecho := "", author := "",
    donate := "", description := "", dir := "Foo2" }

/-- The existing-record list of the counterexample to C2 as stated: two
records with empty ids (and distinct links). -/
def emptyIdR1 : Project :=
  { id := "", name := "A", type := "plugin", link := "https://github.com/a/a",
    isGithub := some true, direct := some true, version := "", typecho := "",
    author := "", donate := "", description := "", dir := "A" }

def emptyIdR2 : Project :=
  { id := "", name := "B", type := "plugin", link := "https://github.com/b/b",
    isGithub := some true, direct := some true, version := "", typecho := "",
    author := "", donate := "", description := "", dir := "B" }

/-- Counterexample to C2 as stated: the existing list `[emptyIdR1,
emptyIdR2]` has pairwise-distinct *non-empty* id values (there are none),
yet the merged output (with an empty batch) carries the id value `""` twice,
so not *all* id values of the output are pairwise distinct. -/
theorem merge_unique_ids_counterexample :
    ((([emptyIdR1, emptyIdR2].map Project.id).filter (fun s => s ≠ "")).Nodup) ∧
    ¬ ((_merge_projects [emptyIdR1, emptyIdR2] []).map Project.id).Nodup := by
  constructor
  · decide
  · decide

/-- C2 (amended): for every existing-record list whose non-empty id values
are pairwise distinct and every incoming batch, the *non-empty* id values of
the merged output are pairwise distinct; an incoming record whose id
collides with an id already used receives that id suffixed with `-2`, `-3`,
…, as in the claim's `plugin-foo` / `plugin-foo-2` example. -/
theorem merge_unique_ids_amended :
    (∀ C B : List Project,
      ((C.map Project.id).filter (fun s => s ≠ "")).Nodup →
      (((_merge_projects C B).map Project.id).filter (fun s => s ≠ "")).Nodup) ∧
    _merge_projects [fooExisting] [fooIncoming] =
      [fooExisting, { fooIncoming with id := "plugin-foo-2" }] := by
  refine ⟨?_, by decide⟩
  intro C B h
  have h2 : ∀ p ∈ C, p.id ≠ "" → p.id ∈ usedIds C := by
    intro p hp hne
    unfold usedIds
    exact List.mem_map_of_mem _ (List.mem_filter.mpr ⟨hp, by simpa using hne⟩)
  exact (merge_nodup_aux B C (usedIds C) h h2).1

/-- Witness for C2 (amended) at a concrete input. -/
theorem merge_unique_ids_amended_witness :
    (((_merge_projects [fooExisting] [fooIncoming]).map Project.id).filter
        (fun s => s ≠ "")).Nodup :=
  merge_unique_ids_amended.1 [fooExisting] [fooIncoming] (by decide)

/-! ### Frame preservation of the merger (C7) -/

theorem frameRefl :
    ∀ out : List Project,
      List.Forall₂ (fun p q : Project => p.id = q.id ∧ p.link = q.link) out out
  | [] => List.Forall₂.nil
  | _ :: rest => List.Forall₂.cons ⟨rfl, rfl⟩ (frameRefl rest)

theorem frameTrans :
    ∀ {a b c : List Project},
      List.Forall₂ (fun p q : Project => p.id = q.id ∧ p.link = q.link) a b →
      List.Forall₂ (fun p q : Project => p.id = q.id ∧ p.link = q.link) b c →
      List.Forall₂ (fun p q : Project => p.id = q.id ∧ p.link = q.link) a c
  | [], [], [], _, _ => List.Forall₂.nil
  | _ :: _, _ :: _, _ :: _, List.Forall₂.cons h1 t1, List.Forall₂.cons h2 t2 =>
      List.Forall₂.cons ⟨h1.1.trans h2.1, h1.2.trans h2.2⟩ (frameTrans t1 t2)

/-- Updating one position with a value preserving id and link keeps the
whole list frame-related to the original. -/
theorem frame_set (inc : Project) :
    ∀ (out : List Project) (i : Nat),
      List.Forall₂ (fun p q : Project => p.id = q.id ∧ p.link = q.link) out
        (out.set i (updateProject (out.getD i pd) inc))
  | [], _ => List.Forall₂.nil
  | _ :: rest, 0 => List.Forall₂.cons ⟨rfl, rfl⟩ (frameRefl rest)
  | _ :: rest, i + 1 => List.Forall₂.cons ⟨rfl, rfl⟩ (frame_set inc rest i)

theorem forall₂_concat_left {R : Project → Project → Prop} :
    ∀ {l₁ l : List Project} {x : Project}, List.Forall₂ R (l₁ ++ [x]) l →
      ∃ l₁' y, l = l₁' ++ [y] ∧ List.Forall₂ R l₁ l₁' ∧ R x y := by
  intro l₁
  induction l₁ with
  | nil =>
      intro l x h
      rw [List.nil_append] at h
      cases h with
      | cons hxy ht =>
          cases ht
          exact ⟨[], _, rfl, List.Forall₂.nil, hxy⟩
  | cons a l₁ ih =>
      intro l x h
      rw [List.cons_append] at h
      cases h with
      | cons hab ht =>
          obtain ⟨l₁', y, rfl, hf, hxy⟩ := ih ht
          exact ⟨_ :: l₁', y, rfl, List.Forall₂.cons hab hf, hxy⟩

/-- Fold version of the frame property: the output is the input list
pointwise updated (ids and links intact), followed by records derived from
a subsequence of the incoming batch in order (each keeping its link). -/
theorem merge_frame_aux :
    ∀ (B : List Project) (out : List Project) (used : List String),
      ∃ out₁ news bsub,
        (B.foldl mergeStep (out, used)).1 = out₁ ++ news ∧
        List.Forall₂ (fun p q : Project => p.id = q.id ∧ p.link = q.link) out out₁ ∧
        List.Sublist bsub B ∧
        List.Forall₂ (fun b n : Project => n.link = b.link) bsub news
  | [], out, used =>
      ⟨out, [], [], by simp, frameRefl out, List.nil_sublist _, List.Forall₂.nil⟩
  | b :: B', out, used => by
      rw [List.foldl_cons]
      by_cases hlink : pyStrip b.link = ""
      · have hstep : mergeStep (out, used) b = (out, used) := by
          unfold mergeStep
          rw [if_pos hlink]
        rw [hstep]
        obtain ⟨out₁, news, bsub, heq, hf, hsub, hfb⟩ := merge_frame_aux B' out used
        exact ⟨out₁, news, bsub, heq, hf, hsub.cons b, hfb⟩
      · cases hlm : lastMatch out (pyStrip b.link) with
        | some i =>
            have hstep : mergeStep (out, used) b =
                (out.set i (updateProject (out.getD i pd) b), used) := by
              unfold mergeStep
              rw [if_neg hlink, hlm]
            rw [hstep]
            obtain ⟨out₁, news, bsub, heq, hf, hsub, hfb⟩ :=
              merge_frame_aux B' (out.set i (updateProject (out.getD i pd) b)) used
            exact ⟨out₁, news, bsub, heq, frameTrans (frame_set b out i) hf,
              hsub.cons b, hfb⟩
        | none =>
            have hstep : mergeStep (out, used) b =
                (out ++ [{ b with id := unique_id b.id used }],
                 unique_id b.id used :: used) := by
              unfold mergeStep
              rw [if_neg hlink, hlm]
            rw [hstep]
            obtain ⟨out₁, news, bsub, heq, hf, hsub, hfb⟩ :=
              merge_frame_aux B' (out ++ [{ b with id := unique_id b.id used }])
                (unique_id b.id used :: used)
            obtain ⟨out₁a, q, rfl, hf', hq⟩ := forall₂_concat_left hf
            refine ⟨out₁a, q :: news, b :: bsub, ?_, hf', hsub.cons₂ b, ?_⟩
            · rw [heq, List.append_assoc, List.singleton_append]
            · exact List.Forall₂.cons hq.2.symm hfb

/-- C7: the merger never removes or reorders existing records and never
changes an existing record's id or link — the merged output begins with the
records of `C` in original order (only the other fields possibly updated),
followed by the newly inserted records, which derive from a subsequence of
`B` in discovery order, each keeping its link. -/
theorem merge_frame (C B : List Project) :
    ∃ C' news bsub,
      _merge_projects C B = C' ++ news ∧
      List.Forall₂ (fun p q : Project => p.id = q.id ∧ p.link = q.link) C C' ∧
      List.Sublist bsub B ∧
      List.Forall₂ (fun b n : Project => n.link = b.link) bsub news :=
  merge_frame_aux B C (usedIds C)

/-! ### Idempotence of the merger (C1): per-field replay lemmas -/

/-- Evolution of the `dir` field of one record under a sequence of incoming
directory values (the weak default `w` is fixed, since the link never
changes). -/
def dirRun (w s : String) (ds : List String) : String := ds.foldl (dirStep w) s

/-- Evolution of one fill-in-blank field under a sequence of incoming
values. -/
def fillRun (s : String) (ds : List String) : String := ds.foldl fillStep s

/-- Evolution of one flag under a sequence of updates (the update ignores
the incoming record). -/
def fRun (o : Option Bool) (bs : List Project) : Option Bool :=
  bs.foldl (fun o _ => flagStep o) o

theorem valid_dir_ne {d : String} (h : _is_valid_dir d = true) : d ≠ "" := by
  intro h0
  rw [h0] at h
  exact absurd h (by decide)

theorem dirStep_valid {w s d : String} (h : _is_valid_dir d = true) :
    dirStep w s d = d := by
  have hne : d ≠ "" := valid_dir_ne h
  unfold dirStep
  by_cases h1 : d ≠ "" ∧ (s = "" ∨ s = w)
  · rw [if_pos h1]
  · rw [if_neg h1]
    by_cases h2 : d ≠ "" ∧ s ≠ d ∧ _is_valid_dir d
    · rw [if_pos h2]
    · rw [if_neg h2]
      by_contra hsd
      exact h2 ⟨hne, hsd, h⟩

theorem dirStep_empty_d (w s : String) : dirStep w s "" = s := by
  unfold dirStep
  rw [if_neg (fun h => h.1 rfl), if_neg (fun h => h.1 rfl)]

theorem fillStep_ne {s d : String} (h : s ≠ "") : fillStep s d = s := by
  unfold fillStep
  rw [if_neg (fun hc => h hc.1)]

theorem fillRun_ne : ∀ (ds : List String) {s : String}, s ≠ "" → fillRun s ds = s
  | [], _, _ => rfl
  | d :: ds, s, h => by
      show fillRun (fillStep s d) ds = s
      rw [fillStep_ne h]
      exact fillRun_ne ds h

theorem fillRun_empty : ∀ (ds : List String) {s : String},
    fillRun s ds = "" → s = "" ∧ ∀ d ∈ ds, d = ""
  | [], s, h => ⟨h, by simp⟩
  | d :: ds, s, h => by
      obtain ⟨h1, h2⟩ := fillRun_empty ds (h : fillRun (fillStep s d) ds = "")
      unfold fillStep at h1
      split at h1
      · next hcond => exact absurd h1 hcond.2
      · next hcond =>
          refine ⟨h1, ?_⟩
          intro x hx
          rcases List.mem_cons.mp hx with rfl | hx'
          · by_contra hd
            exact hcond ⟨h1, hd⟩
          · exact h2 x hx'

theorem fillStep_empty_empty : fillStep "" "" = "" := by
  unfold fillStep
  rw [if_neg (fun hc => hc.2 rfl)]

theorem fillRun_all_empty : ∀ (ds : List String), (∀ d ∈ ds, d = "") →
    fillRun "" ds = ""
  | [], _ => rfl
  | d :: ds, h => by
      have hd : d = "" := h d (List.mem_cons_self _ _)
      show fillRun (fillStep "" d) ds = ""
      rw [hd, fillStep_empty_empty]
      exact fillRun_all_empty ds (fun x hx => h x (List.mem_cons_of_mem _ hx))

theorem fillRun_replay (s : String) (ds : List String) :
    fillRun (fillRun s ds) ds = fillRun s ds := by
  by_cases h : fillRun s ds = ""
  · rw [h]
    exact (fillRun_empty ds h).2 |> fillRun_all_empty ds
  · exact fillRun_ne ds h

theorem flagStep_some {o : Option Bool} (h : o.isSome) : flagStep o = o := by
  unfold flagStep
  rw [if_neg]
  intro h0
  rw [h0] at h
  simp at h

theorem flagStep_isSome (o : Option Bool) : (flagStep o).isSome := by
  unfold flagStep
  cases o with
  | none => rfl
  | some v => rfl

theorem fRun_some : ∀ (bs : List Project) {o : Option Bool}, o.isSome → fRun o bs = o
  | [], _, _ => rfl
  | b :: bs, o, h => by
      show fRun (flagStep o) bs = o
      rw [flagStep_some h]
      exact fRun_some bs h

theorem fRun_replay : ∀ (bs : List Project) (o : Option Bool),
    fRun (fRun o bs) bs = fRun o bs
  | [], _ => rfl
  | b :: bs, o => by
      have hsome : (fRun o (b :: bs)).isSome := by
        show (fRun (flagStep o) bs).isSome
        rw [fRun_some bs (flagStep_isSome o)]
        exact flagStep_isSome o
      show fRun (fRun o (b :: bs)) (b :: bs) = fRun o (b :: bs)
      have h2 : fRun (fRun o (b :: bs)) (b :: bs)
          = fRun (flagStep (fRun o (b :: bs))) bs := rfl
      rw [h2, flagStep_some hsome]
      exact fRun_some bs hsome

theorem dirRun_stuck : ∀ (ds : List String) {w s : String}, s ≠ "" → s ≠ w →
    (∀ d ∈ ds, _is_valid_dir d = false) → dirRun w s ds = s
  | [], _, _, _, _, _ => rfl
  | d :: ds, w, s, h1, h2, hds => by
      have hn1 : ¬(d ≠ "" ∧ (s = "" ∨ s = w)) := by
        intro ⟨_, hcase⟩
        rcases hcase with hc | hc
        · exact h1 hc
        · exact h2 hc
      have hn2 : ¬(d ≠ "" ∧ s ≠ d ∧ _is_valid_dir d = true) := by
        intro ⟨_, _, hval⟩
        rw [hds d (List.mem_cons_self _ _)] at hval
        exact Bool.noConfusion hval
      have hstep : dirStep w s d = s := by
        unfold dirStep
        rw [if_neg hn1, if_neg hn2]
      show dirRun w (dirStep w s d) ds = s
      rw [hstep]
      exact dirRun_stuck ds h1 h2 (fun x hx => hds x (List.mem_cons_of_mem _ hx))

theorem dirRun_empty : ∀ (ds : List String) {w s : String},
    dirRun w s ds = "" → s = "" ∧ ∀ d ∈ ds, d = ""
  | [], _, s, h => ⟨h, by simp⟩
  | d :: ds, w, s, h => by
      obtain ⟨h1, h2⟩ := dirRun_empty ds (h : dirRun w (dirStep w s d) ds = "")
      unfold dirStep at h1
      split at h1
      · next hcond => exact absurd h1 hcond.1
      · split at h1
        · next hcond => exact absurd h1 hcond.1
        · refine ⟨h1, ?_⟩
          intro x hx
          rcases List.mem_cons.mp hx with rfl | hx'
          · next hc1 _ =>
              by_contra hd
              exact hc1 ⟨hd, Or.inl h1⟩
          · exact h2 x hx'

theorem dirRun_all_trivial : ∀ (ds : List String) {w : String},
    (∀ d ∈ ds, d = "") → dirRun w "" ds = ""
  | [], _, _ => rfl
  | d :: ds, w, h => by
      have hd := h d (List.mem_cons_self _ _)
      show dirRun w (dirStep w "" d) ds = ""
      rw [hd, dirStep_empty_d]
      exact dirRun_all_trivial ds (fun x hx => h x (List.mem_cons_of_mem _ hx))

theorem dirRun_escape : ∀ (ds : List String) {w s : String},
    (∀ d ∈ ds, _is_valid_dir d = false) →
    (∃ d ∈ ds, d ≠ "" ∧ d ≠ w) →
    dirRun w s ds ≠ "" ∧ dirRun w s ds ≠ w
  | [], _, _, _, hex => by simp at hex
  | d :: ds, w, s, hval, hex => by
      have hval' : ∀ x ∈ ds, _is_valid_dir x = false :=
        fun x hx => hval x (List.mem_cons_of_mem _ hx)
      by_cases hd : d ≠ "" ∧ d ≠ w
      · by_cases hs : s = "" ∨ s = w
        · have hstep : dirStep w s d = d := by
            unfold dirStep
            rw [if_pos ⟨hd.1, hs⟩]
          show dirRun w (dirStep w s d) ds ≠ "" ∧ dirRun w (dirStep w s d) ds ≠ w
          rw [hstep, dirRun_stuck ds hd.1 hd.2 hval']
          exact hd
        · rw [not_or] at hs
          have hn2 : ¬(d ≠ "" ∧ s ≠ d ∧ _is_valid_dir d = true) := by
            intro ⟨_, _, hv⟩
            rw [hval d (List.mem_cons_self _ _)] at hv
            exact Bool.noConfusion hv
          have hn1 : ¬(d ≠ "" ∧ (s = "" ∨ s = w)) := by
            intro hc
            rcases hc.2 with h | h
            · exact hs.1 h
            · exact hs.2 h
          have hstep : dirStep w s d = s := by
            unfold dirStep
            rw [if_neg hn1, if_neg hn2]
          show dirRun w (dirStep w s d) ds ≠ "" ∧ dirRun w (dirStep w s d) ds ≠ w
          rw [hstep, dirRun_stuck ds hs.1 hs.2 hval']
          exact hs
      · obtain ⟨x, hx, hxp⟩ := hex
        have hx' : x ∈ ds := by
          rcases List.mem_cons.mp hx with rfl | h'
          · exact absurd hxp hd
          · exact h'
        show dirRun w (dirStep w s d) ds ≠ "" ∧ dirRun w (dirStep w s d) ds ≠ w
        exact dirRun_escape ds hval' ⟨x, hx', hxp⟩

theorem dirRun_w_only : ∀ (ds : List String) {w : String}, w ≠ "" →
    (∀ d ∈ ds, d = "" ∨ d = w) → dirRun w w ds = w
  | [], _, _, _ => rfl
  | d :: ds, w, hw, h => by
      have htail : ∀ x ∈ ds, x = "" ∨ x = w :=
        fun x hx => h x (List.mem_cons_of_mem _ hx)
      show dirRun w (dirStep w w d) ds = w
      rcases h d (List.mem_cons_self _ _) with hd | hd
      · rw [hd, dirStep_empty_d]
        exact dirRun_w_only ds hw htail
      · have hstep : dirStep w w d = w := by
          rw [hd]
          unfold dirStep
          rw [if_pos ⟨hw, Or.inr rfl⟩]
        rw [hstep]
        exact dirRun_w_only ds hw htail

theorem exists_last_valid : ∀ (ds : List String),
    (∃ d ∈ ds, _is_valid_dir d = true) →
    ∃ pre d0 suf, ds = pre ++ d0 :: suf ∧ _is_valid_dir d0 = true ∧
      ∀ d ∈ suf, _is_valid_dir d = false
  | [], h => by simp at h
  | d :: ds, h => by
      by_cases hds : ∃ x ∈ ds, _is_valid_dir x = true
      · obtain ⟨pre, d0, suf, heq, hv, hs⟩ := exists_last_valid ds hds
        exact ⟨d :: pre, d0, suf, by rw [heq, List.cons_append], hv, hs⟩
      · have hd : _is_valid_dir d = true := by
          obtain ⟨x, hx, hxv⟩ := h
          rcases List.mem_cons.mp hx with rfl | hx'
          · exact hxv
          · exact absurd ⟨x, hx', hxv⟩ hds
        refine ⟨[], d, ds, rfl, hd, ?_⟩
        intro x hx
        by_contra hxv
        exact hds ⟨x, hx, by simpa using hxv⟩

/-- Replaying the same directory-value sequence a second time leaves the
directory unchanged: a valid value always overwrites (so the last valid one
wins in both passes), and without valid values the state can only move
between the blank/weak-default states and the same final value is reached. -/
theorem dirRun_replay (w s : String) (ds : List String) :
    dirRun w (dirRun w s ds) ds = dirRun w s ds := by
  by_cases hv : ∃ d ∈ ds, _is_valid_dir d = true
  · obtain ⟨pre, d0, suf, heq, hval, hsuf⟩ := exists_last_valid ds hv
    have key : ∀ t, dirRun w t ds = dirRun w d0 suf := by
      intro t
      rw [heq]
      show List.foldl (dirStep w) t (pre ++ d0 :: suf) = _
      rw [List.foldl_append, List.foldl_cons, dirStep_valid hval]
      rfl
    rw [key, key]
  · have hds : ∀ d ∈ ds, _is_valid_dir d = false := by
      intro d hd
      by_contra h
      exact hv ⟨d, hd, by simpa using h⟩
    by_cases h0 : dirRun w s ds = ""
    · rw [h0]
      exact dirRun_all_trivial ds (dirRun_empty ds h0).2
    · by_cases h1 : dirRun w s ds = w
      · rw [h1]
        have hw : w ≠ "" := by
          rw [h1] at h0
          exact h0
        have hall : ∀ d ∈ ds, d = "" ∨ d = w := by
          intro d hd
          by_contra hcon
          push_neg at hcon
          exact (dirRun_escape ds hds ⟨d, hd, hcon⟩).2 h1
        exact dirRun_w_only ds hw hall
      · exact dirRun_stuck ds h0 h1 hds

/-- A record updated by a sequence of incoming records decomposes
componentwise: `id` and `link` are untouched, each fill-in field evolves by
its own `fillRun`, the flags by `fRun`, and the directory by `dirRun` with
the weak default computed from the (constant) link. -/
theorem foldl_upd_eq : ∀ (bs : List Project) (r : Project),
    bs.foldl updateProject r =
      { id := r.id
        name := fillRun r.name (bs.map Project.name)
        type := fillRun r.type (bs.map Project.type)
        link := r.link
        isGithub := fRun r.isGithub bs
        direct := fRun r.direct bs
        version := fillRun r.version (bs.map Project.version)
        typecho := fillRun r.typecho (bs.map Project.typecho)
        author := fillRun r.author (bs.map Project.author)
        donate := fillRun r.donate (bs.map Project.donate)
        description := fillRun r.description (bs.map Project.description)
        dir := dirRun (lastSeg r.link) r.dir (bs.map Project.dir) }
  | [], r => rfl
  | b :: bs, r => by
      show List.foldl updateProject (updateProject r b) bs = _
      rw [foldl_upd_eq bs (updateProject r b)]
      rfl

theorem foldl_upd_replay (bs : List Project) (r : Project) :
    bs.foldl updateProject (bs.foldl updateProject r) = bs.foldl updateProject r := by
  rw [foldl_upd_eq bs r, foldl_upd_eq bs]
  dsimp only
  simp only [fillRun_replay, dirRun_replay, fRun_replay]

theorem dirStep_self (w s : String) : dirStep w s s = s := by
  unfold dirStep
  by_cases h1 : s ≠ "" ∧ (s = "" ∨ s = w)
  · rw [if_pos h1]
  · rw [if_neg h1, if_neg]
    intro ⟨_, h3, _⟩
    exact h3 rfl

theorem fillStep_self (s : String) : fillStep s s = s := by
  unfold fillStep
  rw [if_neg]
  intro ⟨h1, h2⟩
  exact h2 h1

/-- Updating a record with (a re-id-ed copy of) itself changes nothing, as
long as both flags are present. -/
theorem upd_absorb {b : Project} (hg : b.isGithub.isSome) (hd : b.direct.isSome)
    (x : String) : updateProject { b with id := x } b = { b with id := x } := by
  unfold updateProject
  dsimp only
  rw [dirStep_self, fillStep_self, fillStep_self, fillStep_self, fillStep_self,
    fillStep_self, fillStep_self, fillStep_self, flagStep_some hg,
    flagStep_some hd]

theorem getD_set_self : ∀ (l : List Project) (i : Nat) (v : Project),
    i < l.length → (l.set i v).getD i pd = v
  | [], _, _, h => absurd h (by simp)
  | _ :: _, 0, _, _ => rfl
  | _ :: l, i + 1, v, h => getD_set_self l i v (Nat.lt_of_succ_lt_succ h)

theorem getD_set_ne : ∀ (l : List Project) (i j : Nat) (v : Project), i ≠ j →
    (l.set i v).getD j pd = l.getD j pd
  | [], _, _, _, _ => rfl
  | _ :: _, 0, 0, _, h => absurd rfl h
  | _ :: _, 0, _ + 1, _, _ => rfl
  | _ :: _, _ + 1, 0, _, _ => rfl
  | _ :: l, i + 1, j + 1, v, h =>
      getD_set_ne l i j v (fun hc => h (by rw [hc]))

theorem getD_append_left : ∀ (l1 l2 : List Project) (i : Nat), i < l1.length →
    (l1 ++ l2).getD i pd = l1.getD i pd
  | [], _, _, h => absurd h (by simp)
  | _ :: _, _, 0, _ => rfl
  | _ :: l1, l2, i + 1, h => getD_append_left l1 l2 i (Nat.lt_of_succ_lt_succ h)

theorem getD_append_len : ∀ (l1 : List Project) (x : Project),
    (l1 ++ [x]).getD l1.length pd = x
  | [], _ => rfl
  | _ :: l1, x => getD_append_len l1 x

theorem lastMatch_lt : ∀ (out : List Project) (L : String) {i : Nat},
    lastMatch out L = some i → i < out.length
  | [], L, i, h => by simp [lastMatch] at h
  | p :: rest, L, i, h => by
      unfold lastMatch at h
      cases hr : lastMatch rest L with
      | some j =>
          rw [hr] at h
          dsimp only at h
          cases h
          exact Nat.succ_lt_succ (lastMatch_lt rest L hr)
      | none =>
          rw [hr] at h
          dsimp only at h
          split at h
          · cases h
            exact Nat.succ_pos _
          · exact absurd h (by simp)

/-- `lastMatch` only looks at the links of the output records. -/
theorem lastMatch_congr : ∀ (out out' : List Project),
    out.map Project.link = out'.map Project.link →
    ∀ L, lastMatch out L = lastMatch out' L
  | [], [], _, _ => rfl
  | [], _ :: _, h, _ => by simp at h
  | _ :: _, [], h, _ => by simp at h
  | p :: rest, q :: rest', h, L => by
      simp only [List.map_cons, List.cons.injEq] at h
      unfold lastMatch
      rw [lastMatch_congr rest rest' h.2 L, h.1]

theorem lastMatch_append_single : ∀ (out : List Project) (x : Project) (L : String),
    lastMatch (out ++ [x]) L =
      if x.link ≠ "" ∧ pyStrip x.link = L then some out.length
      else lastMatch out L
  | [], x, L => by
      show lastMatch [x] L = _
      unfold lastMatch
      rfl
  | p :: rest, x, L => by
      have IH := lastMatch_append_single rest x L
      show lastMatch (p :: (rest ++ [x])) L = _
      unfold lastMatch
      rw [IH]
      by_cases hc : x.link ≠ "" ∧ pyStrip x.link = L
      · rw [if_pos hc, if_pos hc]
        rfl
      · rw [if_neg hc, if_neg hc]

/-- The sub-batch of incoming records that the merge routes to slot `i` of
the output `out`: those with truthy link whose stripped link last-matches
position `i`. -/
def matchFilter (out : List Project) (i : Nat) (B : List Project) : List Project :=
  B.filter (fun b => decide (pyStrip b.link ≠ "" ∧ lastMatch out (pyStrip b.link) = some i))

theorem matchFilter_cons_pos {out : List Project} {i : Nat} {b : Project}
    (h1 : pyStrip b.link ≠ "") (h2 : lastMatch out (pyStrip b.link) = some i)
    (B : List Project) :
    matchFilter out i (b :: B) = b :: matchFilter out i B := by
  unfold matchFilter
  rw [List.filter_cons, if_pos (decide_eq_true ⟨h1, h2⟩)]

theorem matchFilter_cons_neg {out : List Project} {i : Nat} {b : Project}
    (h : ¬(pyStrip b.link ≠ "" ∧ lastMatch out (pyStrip b.link) = some i))
    (B : List Project) :
    matchFilter out i (b :: B) = matchFilter out i B := by
  unfold matchFilter
  rw [List.filter_cons, if_neg (fun hc => h (of_decide_eq_true hc))]

theorem matchFilter_congr {out out' : List Project}
    (h : ∀ L, lastMatch out L = lastMatch out' L) (i : Nat) (B : List Project) :
    matchFilter out i B = matchFilter out' i B := by
  unfold matchFilter
  apply List.filter_congr
  intro b _
  rw [h (pyStrip b.link)]

theorem mergeStep_skip {b : Project} (h : pyStrip b.link = "")
    (st : List Project × List String) : mergeStep st b = st := by
  unfold mergeStep
  dsimp only
  rw [if_pos h]

theorem mergeStep_update {out : List Project} {used : List String} {b : Project}
    {i0 : Nat} (h1 : pyStrip b.link ≠ "")
    (h2 : lastMatch out (pyStrip b.link) = some i0) :
    mergeStep (out, used) b
      = (out.set i0 (updateProject (out.getD i0 pd) b), used) := by
  unfold mergeStep
  dsimp only
  rw [if_neg h1, h2]

theorem mergeStep_append {out : List Project} {used : List String} {b : Project}
    (h1 : pyStrip b.link ≠ "")
    (h2 : lastMatch out (pyStrip b.link) = none) :
    mergeStep (out, used) b
      = (out ++ [{ b with id := unique_id b.id used }],
         unique_id b.id used :: used) := by
  unfold mergeStep
  dsimp only
  rw [if_neg h1, h2]

/-- First pass of the idempotence argument: after one merge over a batch
whose records carry both flags, (i) every link position already present in
the output is stable, (ii) every truthy incoming link is matched by the
final output, (iii) the output only grows, and (iv) every output slot is
some seed record updated by exactly the incoming records that the final
match table routes to that slot — the seed being the original record for
pre-existing slots. -/
theorem pass1_decompose : ∀ (B out : List Project) (used : List String),
    (∀ b ∈ B, b.isGithub.isSome ∧ b.direct.isSome) →
    (∀ L i, lastMatch out L = some i →
        lastMatch (B.foldl mergeStep (out, used)).1 L = some i) ∧
    (∀ b ∈ B, pyStrip b.link ≠ "" →
        (lastMatch (B.foldl mergeStep (out, used)).1 (pyStrip b.link)).isSome) ∧
    out.length ≤ (B.foldl mergeStep (out, used)).1.length ∧
    (∀ i, i < (B.foldl mergeStep (out, used)).1.length →
        ∃ seed, (B.foldl mergeStep (out, used)).1.getD i pd =
            (matchFilter (B.foldl mergeStep (out, used)).1 i B).foldl
              updateProject seed ∧
          (i < out.length → seed = out.getD i pd))
  | [], out, used, _ =>
      ⟨fun _ _ h => h, fun b hb => absurd hb (List.not_mem_nil b),
       Nat.le_refl _, fun i _ => ⟨out.getD i pd, rfl, fun _ => rfl⟩⟩
  | b :: B', out, used, hB => by
      have hBtail : ∀ x ∈ B', x.isGithub.isSome ∧ x.direct.isSome :=
        fun x hx => hB x (List.mem_cons_of_mem _ hx)
      rw [List.foldl_cons]
      by_cases hL : pyStrip b.link = ""
      · rw [mergeStep_skip hL]
        obtain ⟨P1, P2, Plen, P4⟩ := pass1_decompose B' out used hBtail
        refine ⟨P1, ?_, Plen, ?_⟩
        · intro x hx hxl
          rcases List.mem_cons.mp hx with rfl | hx'
          · exact absurd hL hxl
          · exact P2 x hx' hxl
        · intro i hi
          obtain ⟨seed, hseed, hside⟩ := P4 i hi
          refine ⟨seed, ?_, hside⟩
          rw [matchFilter_cons_neg (fun hc => hc.1 hL) B']
          exact hseed
      · cases hm : lastMatch out (pyStrip b.link) with
        | some i0 =>
            have hi0 : i0 < out.length := lastMatch_lt out _ hm
            rw [mergeStep_update hL hm]
            obtain ⟨P1, P2, Plen, P4⟩ :=
              pass1_decompose B'
                (out.set i0 (updateProject (out.getD i0 pd) b)) used hBtail
            have hmap : (out.set i0 (updateProject (out.getD i0 pd) b)).map
                Project.link = out.map Project.link :=
              map_set_eq Project.link pd out i0 _ rfl
            have hLM : ∀ L', lastMatch
                (out.set i0 (updateProject (out.getD i0 pd) b)) L'
                  = lastMatch out L' :=
              lastMatch_congr _ out hmap
            have hP1' : ∀ L j, lastMatch out L = some j →
                lastMatch (B'.foldl mergeStep
                  (out.set i0 (updateProject (out.getD i0 pd) b), used)).1 L
                    = some j := by
              intro L j hj
              exact P1 L j (by rw [hLM]; exact hj)
            have hbst : lastMatch (B'.foldl mergeStep
                (out.set i0 (updateProject (out.getD i0 pd) b), used)).1
                  (pyStrip b.link) = some i0 := hP1' _ i0 hm
            refine ⟨hP1', ?_, ?_, ?_⟩
            · intro x hx hxl
              rcases List.mem_cons.mp hx with rfl | hx'
              · rw [hbst]; rfl
              · exact P2 x hx' hxl
            · calc out.length
                  = (out.set i0 (updateProject (out.getD i0 pd) b)).length := by
                    rw [List.length_set]
                _ ≤ _ := Plen
            · intro i hi
              obtain ⟨seed, hseed, hside⟩ := P4 i hi
              by_cases hii : i = i0
              · subst hii
                refine ⟨out.getD i pd, ?_, fun _ => rfl⟩
                rw [matchFilter_cons_pos hL hbst B', List.foldl_cons]
                have hseedv : seed = updateProject (out.getD i pd) b := by
                  rw [hside (by rw [List.length_set]; exact hi0)]
                  exact getD_set_self out i _ hi0
                rw [hseed, hseedv]
              · have hneg : ¬(pyStrip b.link ≠ "" ∧
                    lastMatch (B'.foldl mergeStep
                      (out.set i0 (updateProject (out.getD i0 pd) b), used)).1
                        (pyStrip b.link) = some i) := by
                  intro hc
                  rw [hbst] at hc
                  exact hii (Option.some.inj hc.2).symm
                refine ⟨seed, ?_, ?_⟩
                · rw [matchFilter_cons_neg hneg B']
                  exact hseed
                · intro hiout
                  rw [hside (by rw [List.length_set]; exact hiout)]
                  exact getD_set_ne out i0 i _ (fun hc => hii hc.symm)
        | none =>
            rw [mergeStep_append hL hm]
            obtain ⟨P1, P2, Plen, P4⟩ :=
              pass1_decompose B'
                (out ++ [{ b with id := unique_id b.id used }])
                (unique_id b.id used :: used) hBtail
            have hlink0 : b.link ≠ "" := fun hc => hL (by rw [hc]; rfl)
            have hP1' : ∀ L j, lastMatch out L = some j →
                lastMatch (B'.foldl mergeStep
                  (out ++ [{ b with id := unique_id b.id used }],
                   unique_id b.id used :: used)).1 L = some j := by
              intro L j hj
              have hcond : ¬(({ b with id := unique_id b.id used } : Project).link
                  ≠ "" ∧ pyStrip ({ b with id := unique_id b.id used } :
                    Project).link = L) := by
                intro hc
                have hc2 : pyStrip b.link = L := hc.2
                rw [hc2] at hm
                rw [hm] at hj
                exact Option.noConfusion hj
              apply P1
              rw [lastMatch_append_single out _ L, if_neg hcond]
              exact hj
            have hbst : lastMatch (B'.foldl mergeStep
                (out ++ [{ b with id := unique_id b.id used }],
                 unique_id b.id used :: used)).1 (pyStrip b.link)
                  = some out.length := by
              apply P1
              have hc : ({ b with id := unique_id b.id used } : Project).link ≠ ""
                  ∧ pyStrip ({ b with id := unique_id b.id used } : Project).link
                    = pyStrip b.link := ⟨hlink0, rfl⟩
              rw [lastMatch_append_single out _ (pyStrip b.link), if_pos hc]
            refine ⟨hP1', ?_, ?_, ?_⟩
            · intro x hx hxl
              rcases List.mem_cons.mp hx with rfl | hx'
              · rw [hbst]; rfl
              · exact P2 x hx' hxl
            · calc out.length ≤ out.length + 1 := Nat.le_succ _
                _ = (out ++ [{ b with id := unique_id b.id used }]).length := by
                    rw [List.length_append, List.length_cons, List.length_nil]
                _ ≤ _ := Plen
            · intro i hi
              obtain ⟨seed, hseed, hside⟩ := P4 i hi
              by_cases hii : i = out.length
              · subst hii
                refine ⟨seed, ?_, fun hiout => absurd hiout (lt_irrefl _)⟩
                rw [matchFilter_cons_pos hL hbst B', List.foldl_cons]
                have hbv := hB b (List.mem_cons_self _ _)
                have hseedv : seed = { b with id := unique_id b.id used } := by
                  rw [hside (by rw [List.length_append, List.length_cons,
                    List.length_nil]; omega)]
                  exact getD_append_len out _
                rw [hseed, hseedv, upd_absorb hbv.1 hbv.2]
              · have hneg : ¬(pyStrip b.link ≠ "" ∧
                    lastMatch (B'.foldl mergeStep
                      (out ++ [{ b with id := unique_id b.id used }],
                       unique_id b.id used :: used)).1
                        (pyStrip b.link) = some i) := by
                  intro hc
                  rw [hbst] at hc
                  exact hii (Option.some.inj hc.2).symm
                refine ⟨seed, ?_, ?_⟩
                · rw [matchFilter_cons_neg hneg B']
                  exact hseed
                · intro hiout
                  rw [hside (by rw [List.length_append, List.length_cons,
                    List.length_nil]; omega)]
                  exact getD_append_left out _ i hiout

/-- Second pass: when every truthy incoming link already matches a slot of
the output, the merge appends nothing and each slot becomes its old value
updated by exactly the records routed to it. -/
theorem pass2_pointwise : ∀ (B out : List Project) (used : List String),
    (∀ b ∈ B, pyStrip b.link ≠ "" → (lastMatch out (pyStrip b.link)).isSome) →
    (B.foldl mergeStep (out, used)).1.length = out.length ∧
    ∀ i, i < out.length →
      (B.foldl mergeStep (out, used)).1.getD i pd =
        (matchFilter out i B).foldl updateProject (out.getD i pd)
  | [], _, _, _ => ⟨rfl, fun _ _ => rfl⟩
  | b :: B', out, used, hB => by
      have hBtail : ∀ x ∈ B', pyStrip x.link ≠ "" →
          (lastMatch out (pyStrip x.link)).isSome :=
        fun x hx => hB x (List.mem_cons_of_mem _ hx)
      rw [List.foldl_cons]
      by_cases hL : pyStrip b.link = ""
      · rw [mergeStep_skip hL]
        obtain ⟨hlen, hpt⟩ := pass2_pointwise B' out used hBtail
        refine ⟨hlen, fun i hi => ?_⟩
        rw [matchFilter_cons_neg (fun hc => hc.1 hL) B']
        exact hpt i hi
      · obtain ⟨i0, hm⟩ := Option.isSome_iff_exists.mp
          (hB b (List.mem_cons_self _ _) hL)
        rw [mergeStep_update hL hm]
        have hmap : (out.set i0 (updateProject (out.getD i0 pd) b)).map
            Project.link = out.map Project.link :=
          map_set_eq Project.link pd out i0 _ rfl
        have hLM : ∀ L', lastMatch
            (out.set i0 (updateProject (out.getD i0 pd) b)) L'
              = lastMatch out L' :=
          lastMatch_congr _ out hmap
        have hBtail' : ∀ x ∈ B', pyStrip x.link ≠ "" →
            (lastMatch (out.set i0 (updateProject (out.getD i0 pd) b))
              (pyStrip x.link)).isSome := by
          intro x hx hxl
          rw [hLM]
          exact hBtail x hx hxl
        obtain ⟨hlen, hpt⟩ := pass2_pointwise B'
          (out.set i0 (updateProject (out.getD i0 pd) b)) used hBtail'
        refine ⟨?_, ?_⟩
        · rw [hlen, List.length_set]
        · intro i hi
          have hi' : i < (out.set i0 (updateProject (out.getD i0 pd) b)).length := by
            rw [List.length_set]
            exact hi
          rw [hpt i hi', matchFilter_congr hLM i B']
          by_cases hii : i = i0
          · subst hii
            rw [matchFilter_cons_pos hL hm B', List.foldl_cons,
              getD_set_self out i _ hi]
          · have hneg : ¬(pyStrip b.link ≠ "" ∧
                lastMatch out (pyStrip b.link) = some i) := by
              intro hc
              rw [hm] at hc
              exact hii (Option.some.inj hc.2).symm
            rw [matchFilter_cons_neg hneg B',
              getD_set_ne out i0 i _ (fun hc => hii hc.symm)]

theorem list_ext_getD : ∀ (l1 l2 : List Project), l1.length = l2.length →
    (∀ i, i < l1.length → l1.getD i pd = l2.getD i pd) → l1 = l2
  | [], [], _, _ => rfl
  | [], _ :: _, h, _ => by simp at h
  | _ :: _, [], h, _ => by simp at h
  | a :: l1, c :: l2, h, hp => by
      have h0 : a = c := hp 0 (Nat.succ_pos _)
      rw [h0, list_ext_getD l1 l2 (by simpa using h)
        (fun i hi => hp (i + 1) (Nat.succ_lt_succ hi))]

/-- C1: merge idempotence — for every existing catalog `C` and every batch
`B` of records each carrying a non-empty link and both the `is_github` and
`direct` keys (as the project builder always produces), merging `B` into the
catalog twice yields the same catalog as merging it once: no record is
appended and no field (in particular no id) changes on the second merge. -/
theorem merge_idempotent (C B : List Project)
    (hB : ∀ b ∈ B, b.link ≠ "" ∧ b.isGithub.isSome ∧ b.direct.isSome) :
    _merge_projects (_merge_projects C B) B = _merge_projects C B := by
  obtain ⟨P1, P2, Plen, P4⟩ :=
    pass1_decompose B C (usedIds C) (fun b hb => ⟨(hB b hb).2.1, (hB b hb).2.2⟩)
  obtain ⟨hlen2, hpt2⟩ :=
    pass2_pointwise B (B.foldl mergeStep (C, usedIds C)).1
      (usedIds (B.foldl mergeStep (C, usedIds C)).1) P2
  apply list_ext_getD
  · exact hlen2
  · intro i hi
    have hi' : i < (B.foldl mergeStep ((B.foldl mergeStep (C, usedIds C)).1,
        usedIds (B.foldl mergeStep (C, usedIds C)).1)).1.length := hi
    have hi1 : i < (B.foldl mergeStep (C, usedIds C)).1.length := by
      rw [hlen2] at hi'
      exact hi'
    obtain ⟨seed, hseed, _⟩ := P4 i hi1
    have hkey : (B.foldl mergeStep ((B.foldl mergeStep (C, usedIds C)).1,
        usedIds (B.foldl mergeStep (C, usedIds C)).1)).1.getD i pd
          = (B.foldl mergeStep (C, usedIds C)).1.getD i pd := by
      rw [hpt2 i hi1, hseed]
      exact foldl_upd_replay _ _
    exact hkey

/-- Concrete existing record for the idempotence instance. -/
def idemC1 : Project :=
  { id := "plugin-a", name := "", type := "plugin",
    link := "https://github.com/u/a", isGithub := some true,
    direct := some false, version := "", typecho := "", author := "",
    donate := "", description := "", dir := "" }

/-- Concrete incoming record matching the existing link. -/
def idemB1 : Project :=
  { id := "plugin-a", name := "A", type := "plugin",
    link := "https://github.com/u/a", isGithub := some true,
    direct := some true, version := "1.0", typecho := "", author := "Ann",
    donate := "", description := "first", dir := "Adir" }

/-- Concrete incoming record with a fresh link. -/
def idemB2 : Project :=
  { id := "plugin-b", name := "B", type := "plugin",
    link := "https://github.com/u/b", isGithub := some true,
    direct := some false, version := "2.0", typecho := "", author := "",
    donate := "", description := "", dir := "Bdir" }

theorem merge_idempotent_witness :
    (∀ b ∈ [idemB1, idemB2],
        b.link ≠ "" ∧ b.isGithub.isSome ∧ b.direct.isSome) ∧
    _merge_projects (_merge_projects [idemC1] [idemB1, idemB2])
        [idemB1, idemB2]
      = _merge_projects [idemC1] [idemB1, idemB2] :=
  ⟨by decide, merge_idempotent [idemC1] [idemB1, idemB2] (by decide)⟩

end Crawl
